import Mathlib

/-!
# Verification of the MiniDBMS core against its specification

A shallow embedding of the MiniDBMS Rust sources (`src/base.rs`,
`src/binary_search_tree.rs`, `src/relation.rs`, `src/logic.rs`,
`src/lib.rs`, `src/db_cmds.rs`) together with proofs and refutations of
the specification claims.

Modelling conventions:
* Machine integers (`i32`, `u8`, `u64`/`usize`) are modelled as `Int`/`Nat`
  with explicit range side conditions where wrap-around would matter.
* The Rust `Float` wraps an `f64` that is rounded to two decimal places on
  every construction path (`Float::from`, `Float::wrap`, `Float::from_bytes`).
  We model the wrapped value exactly by its integer number of hundredths
  (`Int`): for the two-decimal magnitudes the claims exercise, the `f64`
  arithmetic used by `to_bytes` / `to_string` (`as i32` truncation,
  `(x*100.).round()`) computes exactly the corresponding hundredths
  operations, which is what the definitions below perform.
* Byte strings are `List Nat` (each entry a byte value).  Rust `String`
  contents are modelled as their byte lists; the claims only exercise
  ASCII data, and the UTF-8 validity check of `String::from_utf8` is
  modelled as an all-bytes-below-128 check, which agrees with it on the
  ASCII inputs appearing in any theorem of this file.
* A Rust panic (out-of-bounds index, `Data::cmp` on two different
  domains) is modelled by `Option`: `none` is a crash.
* File-system state: a `Table`'s backing `.dat` file is modelled by the
  byte list of its data region (everything after the fixed header); the
  header itself is only ever rewritten with unchanged contents by the
  operations studied here.
-/

namespace MiniDBMS

/-- Domain tags, from `base.rs` `enum Domain`. -/
inductive Domain where
  | integer
  | text
  | float
deriving DecidableEq, Repr

/-- Model of `Domain::size_in_bytes` from `base.rs`: Integer 4, Float 5, Text 100. -/
def Domain.sizeInBytes : Domain → Nat
  | .float => 5
  | .integer => 4
  | .text => 100

/-- Model of `Data` from `base.rs`: a tagged scalar.  `integer` carries the wrapped
`i32` value, `float` the wrapped two-decimal value measured in hundredths
(see the module comment), `text` the content bytes (length ≤ 100 enforced
at construction by `Text::from`). -/
inductive Data where
  | integer (v : Int)
  | float (hundredths : Int)
  | text (content : List Nat)
deriving DecidableEq, Repr

/-- The domain a `Data` variant belongs to (the `match` used by
`Constraint::convert_with` in `logic.rs`). -/
def Data.domain : Data → Domain
  | .integer _ => .integer
  | .float _ => .float
  | .text _ => .text

/-! ## Scalar codecs (`base.rs`) -/

/-- Big-endian `i32` encoding (`i32::to_be_bytes`): the four bytes of the
two's-complement representation. -/
def i32ToBytes (v : Int) : List Nat :=
  let u := (v % (2 ^ 32 : Int)).toNat
  [u / 2 ^ 24 % 256, u / 2 ^ 16 % 256, u / 2 ^ 8 % 256, u % 256]

/-- Big-endian `i32` decoding (`i32::from_be_bytes`). -/
def i32FromBytes (b0 b1 b2 b3 : Nat) : Int :=
  let u : Nat := b0 * 2 ^ 24 + b1 * 2 ^ 16 + b2 * 2 ^ 8 + b3
  if u < 2 ^ 31 then (u : Int) else (u : Int) - 2 ^ 32

/-- Model of `Float::to_bytes` from `base.rs`: the integer part truncated toward
zero in four big-endian bytes, then the fractional byte, negative
fractions offset by 100.  `c` is the wrapped value in hundredths. -/
def floatToBytes (c : Int) : List Nat :=
  let i := c.tdiv 100
  let f := c - 100 * i
  let fByte : Nat := if f < 0 then (-f + 100).toNat else f.toNat
  i32ToBytes i ++ [fByte]

/-- Errors surfaced by the engine (`DBError` in `lib.rs`, plus the index
insert error `BSTInsertErr` of `binary_search_tree.rs`). -/
inductive DBError where
  | parseError
  | constraintError
  | fileFormatError
  | bstInsertError
deriving DecidableEq, Repr

/-- Model of `Float::from_bytes` from `base.rs`: fifth byte ≥ 200 is a
`FileFormatError`; a fifth byte above 100 is a negative fraction
`-(byte-100)/100`, otherwise a positive fraction `byte/100`.  Returns the
decoded value in hundredths. -/
def floatFromBytes (b0 b1 b2 b3 b4 : Nat) : Except DBError Int :=
  if 200 ≤ b4 then .error .fileFormatError
  else
    let d : Int := if 100 < b4 then -((b4 : Int) - 100) else (b4 : Int)
    .ok (100 * i32FromBytes b0 b1 b2 b3 + d)

/-- Whitespace test used by Rust's `str::trim` restricted to byte values
(the inputs exercised here are ASCII). -/
def isWsByte (b : Nat) : Bool :=
  b = 32 || b = 9 || b = 10 || b = 11 || b = 12 || b = 13

/-- Rust `str::trim`: strip leading and trailing whitespace. -/
def trimBytes (bs : List Nat) : List Nat :=
  ((bs.dropWhile isWsByte).reverse.dropWhile isWsByte).reverse

/-- Model of `Text::to_bytes` from `base.rs`: exactly 100 bytes, space padded. -/
def textToBytes (content : List Nat) : List Nat :=
  content ++ List.replicate (100 - content.length) 32

/-- Model of `Text::from_bytes` from `base.rs`: reject more than 100 bytes, decode
as UTF-8 (modelled: all bytes < 128, see module comment) and trim. -/
def textFromBytes (bs : List Nat) : Except DBError (List Nat) :=
  if 100 < bs.length then .error .parseError
  else if bs.all (· < 128) then .ok (trimBytes bs)
  else .error .parseError

/-- Model of `Data::as_bytes` from `base.rs`: text is emitted at its own length but
padded with spaces up to a minimum of 5 bytes; floats take 5 bytes,
integers 4. -/
def Data.asBytes : Data → List Nat
  | .text content =>
      if content.length < 5 then content ++ List.replicate (5 - content.length) 32
      else content
  | .float c => floatToBytes c
  | .integer v => i32ToBytes v

/-- Model of `Data::from_bytes` from `base.rs`: length-dispatched — 4 bytes decode
as Integer, 5 as Float, anything else as Text. -/
def Data.fromBytes (bs : List Nat) : Except DBError Data :=
  match bs with
  | [b0, b1, b2, b3] => .ok (.integer (i32FromBytes b0 b1 b2 b3))
  | [b0, b1, b2, b3, b4] => (floatFromBytes b0 b1 b2 b3 b4).map .float
  | _ => (textFromBytes bs).map .text

/-- Model of `Float::to_string` from `base.rs`: `format!("{i}.{f}")` with
the fractional magnitude printed as a bare `u8` (no zero padding), and an
explicit minus sign prepended when the value is negative but the
truncated integer part is zero. -/
def floatToString (c : Int) : String :=
  let i := c.tdiv 100
  let f := c - 100 * i
  if f < 0 then
    let fAbs := (-f).toNat
    if i = 0 then "-" ++ toString i ++ "." ++ toString fAbs
    else toString i ++ "." ++ toString fAbs
  else toString i ++ "." ++ toString f.toNat

/-! ## Predicate algebra (`logic.rs`) -/

/-- Model of `Data::cmp` from `base.rs`: defined only between same-domain
values; comparing different domains panics (`none`). -/
def dataCmp : Data → Data → Option Ordering
  | .float f1, .float f2 => some (compare f1 f2)
  | .integer i1, .integer i2 => some (compare i1 i2)
  | .text t1, .text t2 => some (compare t1 t2)
  | _, _ => none

/-- Logical connectives (`LogOp` in `logic.rs`). -/
inductive LogOp where
  | and
  | or
deriving DecidableEq, Repr

/-- Relational operators (`RelOp` in `logic.rs`). -/
inductive RelOp where
  | equals
  | notEqual
  | greaterThan
  | lessThan
  | greaterThanOrEqual
  | lessThanOrEqual
deriving DecidableEq, Repr

/-- Model of `RelOp::cmp` from `logic.rs`, phrased on the `Ordering` of the
two compared values (the payload types ordered by `PartialOrd` in Rust are
totally ordered in our model, so this is equivalent). -/
def RelOp.apply : RelOp → Ordering → Bool
  | .equals, o => o = .eq
  | .greaterThan, o => o = .gt
  | .lessThan, o => o = .lt
  | .greaterThanOrEqual, o => o ≠ .lt
  | .lessThanOrEqual, o => o ≠ .gt
  | .notEqual, o => o ≠ .eq

/-- Model of `Operand` from `logic.rs`, in resolved form: after a successful
`convert_with` every operand is either a `(table, attribute)` coordinate or
a literal value, never an unresolved identifier, and the claims below
quantify over resolved conditions. -/
inductive Operand where
  | attribute (table : Nat) (attri : Nat)
  | value (data : Data)
deriving DecidableEq, Repr

/-- Model of `Constraint` from `logic.rs`: `left relop right`. -/
structure Constraint where
  leftOp : Operand
  relOp : RelOp
  rightOp : Operand
deriving DecidableEq, Repr

/-- Model of `BoolEval` from `logic.rs`: a constraint leaf or a parenthesized
nested condition; a condition (`Condition.bool_evals`) is the list of
`(LogOp, BoolEval)` pairs whose first `LogOp` is a placeholder `And`. -/
inductive BoolEval where
  | constraint (c : Constraint)
  | condition (l : List (LogOp × BoolEval))
deriving Repr

/-- A `Condition` is its `bool_evals` list (`logic.rs` wraps it in a struct). -/
abbrev Condition := List (LogOp × BoolEval)

/-- Resolution of one operand against a joined record
(`Constraint::eval`'s two `match`es): indexing outside the joined record
is a Rust panic (`none`). -/
def Operand.evalData (joined : List (List Data)) : Operand → Option Data
  | .value d => some d
  | .attribute t a => (joined.get? t).bind fun r => r.get? a

/-- Model of `Constraint::eval` from `logic.rs`: resolve both operands,
compare (panicking on incompatible domains), apply the relational operator. -/
def Constraint.eval (joined : List (List Data)) (c : Constraint) : Option Bool := do
  let l ← c.leftOp.evalData joined
  let r ← c.rightOp.evalData joined
  let o ← dataCmp l r
  pure (c.relOp.apply o)

mutual

/-- Evaluation of a single term (`Condition::eval`'s match arms). -/
def BoolEval.eval (joined : List (List Data)) : BoolEval → Option Bool
  | .constraint c => c.eval joined
  | .condition l => Condition.evalFrom joined true l

/-- Model of `Condition::eval` from `logic.rs`, generalized over the running
boolean `curr`: an `And` term is skipped when `curr` is already false, an
`Or` term returns `true` immediately when `curr` is true, and otherwise the
term is evaluated and becomes the new running value. -/
def Condition.evalFrom (joined : List (List Data)) (curr : Bool) :
    List (LogOp × BoolEval) → Option Bool
  | [] => some curr
  | (op, be) :: rest =>
      match op, curr with
      | .and, false => Condition.evalFrom joined false rest
      | .or, true => some true
      | _, _ => do
          let b ← be.eval joined
          Condition.evalFrom joined b rest

end

mutual

/-- All constraint leaves of a term, in order (a specification-side helper
used to state well-formedness hypotheses). -/
def BoolEval.constraints : BoolEval → List Constraint
  | .constraint c => [c]
  | .condition l => Condition.constraintsOf l

/-- All constraint leaves of a condition. -/
def Condition.constraintsOf : List (LogOp × BoolEval) → List Constraint
  | [] => []
  | (_, be) :: rest => be.constraints ++ Condition.constraintsOf rest

end

/-! ## Key index (`binary_search_tree.rs`) -/

/-- Model of the `BST` node graph of `binary_search_tree.rs`: `leaf` is an
absent child (`Option<Box<Node>>` being `None`), `node` carries the `Data`
key, the `usize` payload (a record ordinal) and the two children. -/
inductive BST where
  | leaf
  | node (key : Data) (data : Nat) (left : BST) (right : BST)
deriving DecidableEq, Repr

/-- Descent part of `BST::insert`: at an equal key fail, otherwise descend
to a leaf slot.  Comparing keys of different domains panics in Rust
(`Data::cmp`), modelled by `none`. -/
def BST.insertGo : BST → Data → Nat → Option (Except DBError BST)
  | .leaf, k, d => some (.ok (.node k d .leaf .leaf))
  | .node k' d' l r, k, d =>
      match dataCmp k k' with
      | none => none
      | some .eq => some (.error .bstInsertError)
      | some .lt => (BST.insertGo l k d).map (Except.map fun l' => .node k' d' l' r)
      | some .gt => (BST.insertGo r k d).map (Except.map fun r' => .node k' d' l r')

/-- Model of `BST::insert` from `binary_search_tree.rs`: keys whose encoded
length exceeds 255 are rejected up front (the length prefix is one byte);
a failed insert leaves the tree untouched (the iterative descent writes
nothing before the leaf slot). -/
def BST.insert (t : BST) (k : Data) (d : Nat) : Option (Except DBError BST) :=
  if 255 < (Data.asBytes k).length then some (.error .bstInsertError)
  else t.insertGo k d

/-- Model of `BST::find` from `binary_search_tree.rs` (iterative descent);
`none` is a cross-domain comparison panic, `some none` means absent. -/
def BST.find? : BST → Data → Option (Option Nat)
  | .leaf, _ => some none
  | .node k' d l r, k =>
      match dataCmp k k' with
      | none => none
      | some .eq => some (some d)
      | some .lt => l.find? k
      | some .gt => r.find? k

/-- Model of `BST::get_data` from `binary_search_tree.rs`: the payloads in
in-order traversal. -/
def BST.getData : BST → List Nat
  | .leaf => []
  | .node _ d l r => l.getData ++ d :: r.getData

/-- The `(key, payload)` pairs of the tree in in-order traversal
(specification-side helper for stating set-of-pairs properties). -/
def BST.pairs : BST → List (Data × Nat)
  | .leaf => []
  | .node k d l r => l.pairs ++ (k, d) :: r.pairs

/-- Rightmost node of a non-leaf tree together with the tree after that
node is unlinked (replaced by its left child): the in-order predecessor
logic of `BST::remove_with_children`.  On `leaf` (never reached from
`remove`) it returns junk. -/
def BST.removeRightmost : BST → Data × Nat × BST
  | .leaf => (.integer 0, 0, .leaf)
  | .node k d l .leaf => (k, d, l)
  | .node k d l (.node k' d' l' r') =>
      let (pk, pd, r'') := BST.removeRightmost (.node k' d' l' r')
      (pk, pd, .node k d l r'')

/-- Model of `BST::remove` from `binary_search_tree.rs`: standard deletion,
two-child case replaced by the in-order predecessor.  Returns the removed
payload (if the key was present) and the new tree; `none` is a
cross-domain comparison panic. -/
def BST.remove : BST → Data → Option (Option Nat × BST)
  | .leaf, _ => some (none, .leaf)
  | .node k' d' l r, k =>
      match dataCmp k k' with
      | none => none
      | some .lt => (l.remove k).map fun p => (p.1, .node k' d' p.2 r)
      | some .gt => (r.remove k).map fun p => (p.1, .node k' d' l p.2)
      | some .eq =>
          match l, r with
          | .leaf, .leaf => some (some d', .leaf)
          | .leaf, .node rk rd rl rr => some (some d', .node rk rd rl rr)
          | .node lk ld ll lr, .leaf => some (some d', .node lk ld ll lr)
          | .node lk ld ll lr, .node rk rd rl rr =>
              let (pk, pd, l') := BST.removeRightmost (.node lk ld ll lr)
              some (some d', .node pk pd l' (.node rk rd rl rr))

/-- A `usize` as eight big-endian bytes (`usize::to_be_bytes`). -/
def natToBe8 (n : Nat) : List Nat :=
  [n / 2 ^ 56 % 256, n / 2 ^ 48 % 256, n / 2 ^ 40 % 256, n / 2 ^ 32 % 256,
   n / 2 ^ 24 % 256, n / 2 ^ 16 % 256, n / 2 ^ 8 % 256, n % 256]

/-- Eight big-endian bytes back to a `usize` (`usize::from_be_bytes`). -/
def beToNat (bs : List Nat) : Nat :=
  bs.foldl (fun acc b => acc * 256 + b) 0

/-- Model of `BST::write_to_file` / `write_in_order_traversal` from
`binary_search_tree.rs`: every node in in-order traversal as
`[key_len as u8] ++ key_bytes ++ payload_be8`. -/
def BST.writeBytes : BST → List Nat
  | .leaf => []
  | .node k d l r =>
      l.writeBytes ++ ((Data.asBytes k).length % 256 :: (Data.asBytes k ++ natToBe8 d))
        ++ r.writeBytes

/-- Node-stream parsing loop of `BST::read_from_file`: read a length byte,
slice the key (a panic — `none` — if the buffer is too short, as Rust
slicing panics), decode it with `Data::from_bytes` (decode failures
propagate as errors), then eight payload bytes.  The recursion is fuelled
structurally so that concrete instances reduce definitionally; every step
consumes at least nine bytes, so fuel equal to the buffer length (as
supplied by `parseNodes`) can never run out. -/
def parseNodesGo : Nat → List Nat → Option (Except DBError (List (Data × Nat)))
  | _, [] => some (.ok [])
  | 0, _ :: _ => none
  | fuel + 1, lenByte :: rest =>
      if lenByte + 8 ≤ rest.length then
        match Data.fromBytes (rest.take lenByte) with
        | .error e => some (.error e)
        | .ok k =>
            match parseNodesGo fuel (rest.drop (lenByte + 8)) with
            | none => none
            | some (.error e) => some (.error e)
            | some (.ok ns) => some (.ok ((k, beToNat ((rest.drop lenByte).take 8)) :: ns))
      else none

/-- The node-stream parser at its (always sufficient) fuel. -/
def parseNodes (bs : List Nat) : Option (Except DBError (List (Data × Nat))) :=
  parseNodesGo bs.length bs

/-- Model of `BST::root_from_in_order_node_vec` from
`binary_search_tree.rs`: split the node list at `len / 2`, the head of the
second half becomes the root, the halves the subtrees.  Fuelled
structurally (both recursive calls strictly shrink the list, so fuel equal
to the list length, as supplied by `rootFromNodes`, can never run out). -/
def rootFromNodesGo : Nat → List (Data × Nat) → BST
  | 0, _ => .leaf
  | fuel + 1, nodes =>
      match nodes.drop (nodes.length / 2) with
      | [] => .leaf
      | root :: tail =>
          .node root.1 root.2 (rootFromNodesGo fuel (nodes.take (nodes.length / 2)))
            (rootFromNodesGo fuel tail)

/-- The balanced rebuild at its (always sufficient) fuel. -/
def rootFromNodes (nodes : List (Data × Nat)) : BST :=
  rootFromNodesGo nodes.length nodes

/-- Model of `BST::read_from_file` from `binary_search_tree.rs`: parse the
in-order node stream and rebuild a balanced tree. -/
def BST.readFromBytes (bs : List Nat) : Option (Except DBError BST) :=
  (parseNodes bs).map (Except.map rootFromNodes)

/-! ## Table store (`relation.rs`) -/

/-- Model of `Table` from `relation.rs`.  `fileData` is the byte content of
the backing `.dat` file after the header (`meta_offset`); `record_length`
and `meta_offset` themselves are derived from the attribute list exactly
as the Rust constructor derives them, and the claims under study never
change the header, so they are not part of the state. -/
structure Table where
  attributes : List (String × Domain)
  recordCount : Nat
  bst : Option BST
  keyAttriNum : Option Nat
  fileData : List Nat
deriving Repr

/-- Record width: the sum of the attribute domain widths (`Table::build`). -/
def Table.recordLength (t : Table) : Nat :=
  (t.attributes.map fun a => a.2.sizeInBytes).sum

/-- One column encoded by the domain-codec dispatch of
`Table::write_record`; `none` is the "invalid data order" mismatch. -/
def encodeValue : Data → Domain → Option (List Nat)
  | .integer v, .integer => some (i32ToBytes v)
  | .float c, .float => some (floatToBytes c)
  | .text s, .text => some (textToBytes s)
  | _, _ => none

/-- Record encoding loop of `Table::write_record` / `update_record`:
`record.iter().zip(self.attributes.iter())` — the zip stops at the shorter
list, and any domain mismatch is a `ConstraintError`. -/
def encodeRecord : List Data → List (String × Domain) → Except DBError (List Nat)
  | [], _ => .ok []
  | _ :: _, [] => .ok []
  | v :: vs, a :: as' =>
      match encodeValue v a.2 with
      | none => .error .constraintError
      | some bs => (encodeRecord vs as').map (bs ++ ·)

/-- Decoding of one record's bytes, column by column in attribute order
(the decode loops of `Table::read_record` and `read_all_data`).  A chunk
that is too short can only arise from a short file and is reported as the
propagated I/O error. -/
def decodeRecordBytes : List (String × Domain) → List Nat → Except DBError (List Data)
  | [], _ => .ok []
  | a :: as', bytes =>
      match a.2 with
      | .integer =>
          match bytes.take 4 with
          | [b0, b1, b2, b3] =>
              (decodeRecordBytes as' (bytes.drop 4)).map (Data.integer (i32FromBytes b0 b1 b2 b3) :: ·)
          | _ => .error .parseError
      | .float =>
          match bytes.take 5 with
          | [b0, b1, b2, b3, b4] => do
              let c ← floatFromBytes b0 b1 b2 b3 b4
              let rest ← decodeRecordBytes as' (bytes.drop 5)
              pure (Data.float c :: rest)
          | _ => .error .parseError
      | .text => do
          let s ← textFromBytes (bytes.take 100)
          let rest ← decodeRecordBytes as' (bytes.drop 100)
          pure (Data.text s :: rest)

/-- Model of `Table::write_record` from `relation.rs`: encode the record
(mismatch → `ConstraintError`), then — for an indexed table — insert the
key into the index (duplicate → the insert error, before any byte reaches
the file), then increment `record_count` and append the bytes.  The
returned `Table` is the post-state even on error; `none` models the Rust
panics (`key_attri_num.unwrap()` on a keyless `bst` table, out-of-range
`record[key_attri_num]`). -/
def Table.writeRecord (t : Table) (record : List Data) :
    Option (Except DBError Unit × Table) :=
  match encodeRecord record t.attributes with
  | .error e => some (.error e, t)
  | .ok bytes =>
      match t.bst with
      | some bst =>
          match t.keyAttriNum with
          | none => none
          | some kn =>
              match record.get? kn with
              | none => none
              | some key =>
                  match bst.insert key t.recordCount with
                  | none => none
                  | some (.error e) => some (.error e, t)
                  | some (.ok bst') =>
                      some (.ok (), { t with
                        bst := some bst',
                        recordCount := t.recordCount + 1,
                        fileData := t.fileData ++ bytes })
      | none =>
          some (.ok (), { t with
            recordCount := t.recordCount + 1,
            fileData := t.fileData ++ bytes })

/-- Model of `Table::read_record` from `relation.rs`.  The bound check uses
`record_num > record_count` exactly as the source does; a file too short
for the requested record is the propagated `read_exact` error. -/
def Table.readRecord (t : Table) (n : Nat) : Except DBError (List Data) :=
  if t.recordCount < n then .error .constraintError
  else
    let rl := t.recordLength
    let chunk := (t.fileData.drop (n * rl)).take rl
    if chunk.length = rl then decodeRecordBytes t.attributes chunk
    else .error .parseError

/-- Sequential decode loop of `Table::read_all_data`. -/
def readAllGo (attrs : List (String × Domain)) (rl : Nat) :
    Nat → List Nat → Except DBError (List (List Data))
  | 0, _ => .ok []
  | n + 1, bytes => do
      let r ← decodeRecordBytes attrs (bytes.take rl)
      let rest ← readAllGo attrs rl n (bytes.drop rl)
      pure (r :: rest)

/-- Model of `Table::read_all_data` from `relation.rs`: slurp
`record_length · record_count` bytes from `meta_offset` (failing like
`read_exact` when the file is shorter) and decode sequentially. -/
def Table.readAllData (t : Table) : Except DBError (List (List Data)) :=
  if t.recordCount * t.recordLength ≤ t.fileData.length then
    readAllGo t.attributes t.recordLength t.recordCount t.fileData
  else .error .parseError

/-- Overwrite `bytes.length` bytes of `file` at offset `off` (a seek
followed by `write_all`). -/
def listWriteAt (file : List Nat) (off : Nat) (bytes : List Nat) : List Nat :=
  file.take off ++ bytes ++ file.drop (off + bytes.length)

/-- Substitution step of `Table::update_record`: for each attribute (by
position), the last entry of `new_values` bearing its identifier replaces
the previous column value. -/
def substRecord (attrs : List (String × Domain)) (prev : List Data)
    (newValues : List (String × Data)) : List Data :=
  (attrs.zip prev).map fun p =>
    (newValues.foldl (fun acc q => if q.1 = p.1.1 then some q.2 else acc) none).getD p.2

/-- Model of `MemTable` from `relation.rs`: records, attribute list and the
projection mask (which starts as the identity). -/
structure MemTable where
  records : List (List Data)
  attributes : List (String × Domain)
  projection : List Nat
deriving Repr

/-- Model of `MemTable::build` from `relation.rs`. -/
def Table.buildMemTable (t : Table) : Except DBError MemTable :=
  (t.readAllData).map fun recs => ⟨recs, t.attributes, List.range t.attributes.length⟩

/-- Duplicate-identifier double loop shared by `Table::build`,
`MemTable::build_from_records` and `rename_attributes`. -/
def hasDupNames (attrs : List (String × Domain)) : Bool :=
  attrs.enum.any fun p => attrs.enum.any fun q => p.1 ≠ q.1 && p.2.1 = q.2.1

/-- Model of `MemTable::build_from_records` from `relation.rs`. -/
def MemTable.buildFromRecords (records : List (List Data))
    (attrs : List (String × Domain)) : Except DBError MemTable :=
  if hasDupNames attrs then .error .constraintError
  else .ok ⟨records, attrs, List.range attrs.length⟩

/-- Model of `Vec::swap_remove`: replace position `i` with the last element
and pop (callers guarantee `i < l.length`). -/
def listSwapRemove (l : List α) (i : Nat) : List α :=
  match l.getLast? with
  | none => l
  | some last => (l.set i last).dropLast

/-- Model of `Table::update_record` from `relation.rs`: read the previous
record, substitute the named columns, re-encode; if the table is indexed
and the value at position 0 changed (the source compares `record[0]`, not
the key column) remove the old key and insert the new one — a duplicate is
a `ConstraintError` raised after the removal but before the in-place
write; finally overwrite the record's bytes. -/
def Table.updateRecord (t : Table) (n : Nat) (newValues : List (String × Data)) :
    Option (Except DBError Unit × Table) :=
  match t.readRecord n with
  | .error e => some (.error e, t)
  | .ok prev =>
      let record := substRecord t.attributes prev newValues
      match encodeRecord record t.attributes with
      | .error e => some (.error e, t)
      | .ok bytes =>
          match t.bst with
          | some bst =>
              match prev.get? 0, record.get? 0 with
              | some p0, some r0 =>
                  if p0 ≠ r0 then
                    match bst.remove p0 with
                    | none => none
                    | some (_, bst₁) =>
                        match bst₁.insert r0 n with
                        | none => none
                        | some (.error _) =>
                            some (.error .constraintError, { t with bst := some bst₁ })
                        | some (.ok bst₂) =>
                            some (.ok (), { t with
                              bst := some bst₂,
                              fileData := listWriteAt t.fileData (n * t.recordLength) bytes })
                  else
                    some (.ok (), { t with
                      fileData := listWriteAt t.fileData (n * t.recordLength) bytes })
              | _, _ => none
          | none =>
              some (.ok (), { t with
                fileData := listWriteAt t.fileData (n * t.recordLength) bytes })

/-! ## Query planner and executor (`logic.rs`) -/

/-- Model of `Constraint::refs_single_table` from `logic.rs`.  The Rust
code panics on a value–value constraint; `convert_with` rejects such
constraints, so for resolved conditions that case is unreachable (it is
mapped to `none` here). -/
def Constraint.refsSingleTable (c : Constraint) : Option Nat :=
  match c.leftOp, c.rightOp with
  | .attribute i1 _, .attribute i2 _ => if i1 = i2 then some i1 else none
  | .attribute i _, .value _ => some i
  | .value _, .attribute i _ => some i
  | .value _, .value _ => none

/-- Model of `Constraint::get_key` from `logic.rs`: a constraint of shape
`key_attribute = literal` (either operand order) against the designated
key column yields the literal.  (The Rust `tables[i]` indexing panics for
an out-of-range table index; resolved conditions keep it in range, and the
out-of-range case is mapped to `none` here.) -/
def Constraint.getKey (tables : List Table) (c : Constraint) : Option Data :=
  match c.leftOp, c.relOp, c.rightOp with
  | .attribute i j, .equals, .value d =>
      match tables.get? i with
      | some tb => if tb.keyAttriNum = some j then some d else none
      | none => none
  | .value d, .equals, .attribute i j =>
      match tables.get? i with
      | some tb => if tb.keyAttriNum = some j then some d else none
      | none => none
  | _, _, _ => none

/-- Outcome of the key-extraction loop of
`Condition::get_record_nums_from_bst`: either the early `return vec![]`
(two distinct candidate keys) or the mutated condition plus the candidate
key, if any. -/
inductive KeyScan where
  | emptyResult
  | keyFound (cond : Condition) (key : Option Data)

/-- Key-extraction while-loop of `Condition::get_record_nums_from_bst`
from `logic.rs`: walk the list, skip nested conditions, remove (by
`swap_remove`) every constraint recognized by `get_key`, record its key;
a second distinct key ends the query with no results.  Fuelled
structurally: every step decreases `cond.length - i`, so fuel exceeding
that bound (as supplied by `getRecordNumsFromBst`) can never run out. -/
def keyScanLoop (tables : List Table) :
    Nat → Condition → Nat → Option Data → KeyScan
  | 0, cond, _, key => .keyFound cond key
  | fuel + 1, cond, i, key =>
      if h : i < cond.length then
        match (cond.get ⟨i, h⟩).2 with
        | .condition _ => keyScanLoop tables fuel cond (i + 1) key
        | .constraint c =>
            match c.getKey tables with
            | none => keyScanLoop tables fuel cond (i + 1) key
            | some newKey =>
                let cond' := listSwapRemove cond i
                match key with
                | some k =>
                    if k = newKey then keyScanLoop tables fuel cond' i (some k)
                    else .emptyResult
                | none => keyScanLoop tables fuel cond' i (some newKey)
      else .keyFound cond key

/-- Model of `Condition::get_record_nums_from_bst` from `logic.rs`: with
any `Or` present fall back to the full in-order enumeration; otherwise
extract key constraints — two distinct keys give the empty candidate list,
exactly one key gives the point lookup, none gives the in-order
enumeration.  Returns the (possibly mutated) condition together with the
candidate ordinals; `none` is a cross-domain `find` panic. -/
def getRecordNumsFromBst (cond : Condition) (b : BST) (tables : List Table) :
    Option (Condition × List Nat) :=
  if cond.any fun p => p.1 = LogOp.or then some (cond, b.getData)
  else
    match keyScanLoop tables (cond.length + 1) cond 0 none with
    | .emptyResult => some ([], [])
    | .keyFound cond' key =>
        match key with
        | some k =>
            match b.find? k with
            | none => none
            | some (some n) => some (cond', [n])
            | some none => some (cond', [])
        | none => some (cond', b.getData)

/-- Filtering loop of `Condition::filter_table_coords`: each candidate
ordinal's record is placed in slot `tableNum` of an otherwise-empty joined
record and the condition is evaluated on it. -/
def ftcGo (cond : Condition) (memCount : Nat) (tableNum : Nat) (mem : MemTable) :
    List Nat → Option (List Nat)
  | [] => some []
  | c :: cs =>
      match mem.records.get? c with
      | none => none
      | some rec =>
          let joined := (List.replicate memCount ([] : List Data)).set tableNum rec
          match Condition.evalFrom joined true cond with
          | none => none
          | some b => (ftcGo cond memCount tableNum mem cs).map fun rest =>
              if b then c :: rest else rest

/-- Model of `Condition::filter_table_coords` from `logic.rs`: seed the
candidate ordinals (via the index when present, else the full range), then
filter them by evaluating the (residual) condition against
single-real-slot joined records. -/
def Condition.filterTableCoords (cond : Condition) (memTables : List MemTable)
    (tableNum : Nat) (bst : Option BST) (tables : List Table) : Option (List Nat) :=
  match memTables.get? tableNum with
  | none => none
  | some mem =>
      match bst with
      | some b =>
          match getRecordNumsFromBst cond b tables with
          | none => none
          | some (cond', coords) => ftcGo cond' memTables.length tableNum mem coords
      | none => ftcGo cond memTables.length tableNum mem (List.range mem.records.length)

/-- Key-attribute guard loop of `Table::update_all`: Rust iterates the
assignment list and compares each identifier with `attributes[0]`'s name
(a panic — `none` — when the attribute list is empty and the assignment
list is not). -/
def keyGuard (attrs : List (String × Domain)) : List (String × Data) → Option Bool
  | [] => some false
  | (id, _) :: rest =>
      match attrs.head? with
      | none => none
      | some a => if id = a.1 then some true else keyGuard attrs rest

/-- Per-ordinal update loop of `Table::update_all`: errors stop the loop
but keep the updates already applied. -/
def Table.updateLoop (newValues : List (String × Data)) :
    Table → List Nat → Option (Except DBError Unit × Table)
  | t, [] => some (.ok (), t)
  | t, n :: ns =>
      match t.updateRecord n newValues with
      | none => none
      | some (.error e, t') => some (.error e, t')
      | some (.ok _, t') => Table.updateLoop newValues t' ns

/-- Model of `Table::update_all` from `relation.rs`: materialize, select
the matching ordinals through the condition (with the index fast path),
apply the multi-key guard, then update each matched ordinal in place. -/
def Table.updateAll (t : Table) (cond : Condition) (newValues : List (String × Data)) :
    Option (Except DBError Unit × Table) :=
  match t.readAllData with
  | .error e => some (.error e, t)
  | .ok recs =>
      let mem : MemTable := ⟨recs, t.attributes, List.range t.attributes.length⟩
      match cond.filterTableCoords [mem] 0 t.bst [t] with
      | none => none
      | some recordNums =>
          let guard : Option Bool :=
            if t.bst.isSome ∧ 1 < recordNums.length then keyGuard t.attributes newValues
            else some false
          match guard with
          | none => none
          | some true => some (.error .constraintError, t)
          | some false => Table.updateLoop newValues t recordNums

/-- Record re-append loop of `Table::delete_all` (`write_record` per
surviving record). -/
def Table.writeLoop : Table → List (List Data) → Option (Except DBError Unit × Table)
  | t, [] => some (.ok (), t)
  | t, r :: rs =>
      match t.writeRecord r with
      | none => none
      | some (.error e, t') => some (.error e, t')
      | some (.ok _, t') => Table.writeLoop t' rs

/-- Model of `Table::delete_all` from `relation.rs`: materialize, select
matching ordinals, return immediately when none match; otherwise
swap-remove them (highest ordinal first) from the materialized records,
clear the index, truncate the file to the header, rewrite the survivors
and rebalance the index by a serialize–reload round trip. -/
def Table.deleteAll (t : Table) (cond : Condition) : Option (Except DBError Unit × Table) :=
  match t.readAllData with
  | .error e => some (.error e, t)
  | .ok recs =>
      let mem : MemTable := ⟨recs, t.attributes, List.range t.attributes.length⟩
      match cond.filterTableCoords [mem] 0 t.bst [t] with
      | none => none
      | some recordNums =>
          if recordNums.length = 0 then some (.ok (), t)
          else
            let sorted := recordNums.mergeSort (fun a b => a ≤ b)
            let survivors := sorted.reverse.foldl (fun rs n => listSwapRemove rs n) recs
            let t₁ := { t with
              bst := t.bst.map fun _ => BST.leaf,
              fileData := ([] : List Nat),
              recordCount := 0 }
            match t₁.writeLoop survivors with
            | none => none
            | some (.error e, t₂) => some (.error e, t₂)
            | some (.ok _, t₂) =>
                match t₂.bst with
                | none => some (.ok (), t₂)
                | some b =>
                    match BST.readFromBytes b.writeBytes with
                    | none => none
                    | some (.error e) => some (.error e, t₂)
                    | some (.ok b') => some (.ok (), { t₂ with bst := some b' })

/-- Helper-map update of `Condition::split_load_helpers`: push the term
onto the table's helper condition, creating it if absent (`HashMap`
`get_mut` / `insert`). -/
def helpersAdd (hs : List (Nat × Condition)) (tn : Nat) (be : LogOp × BoolEval) :
    List (Nat × Condition) :=
  if (List.lookup tn hs).isSome then
    hs.map fun p => if p.1 = tn then (p.1, p.2 ++ [be]) else p
  else hs ++ [(tn, [be])]

mutual

/-- Model of `Condition::split_load_helpers` from `logic.rs`: clear
`always_true` when any `Or` connective appears in this list, then run the
extraction while-loop.  The mutual recursion is fuelled (`none` = fuel
exhausted); every concrete evaluation below supplies ample fuel. -/
def splitLoadHelpers : Nat → Condition → List (Nat × Condition) → Bool →
    Option (Condition × List (Nat × Condition) × Option Nat)
  | 0, _, _, _ => none
  | fuel + 1, cond, helpers, alwaysTrue =>
      let at' := if cond.any fun p => p.1 = LogOp.or then false else alwaysTrue
      slhLoop fuel cond 0 helpers at' true none

/-- Extraction while-loop of `split_load_helpers`: nested conditions are
recursively split and extracted whole when they report a single table and
every connective from the root is `And`; single-table constraints update
the `single_table` / `last_table` tracking and are extracted under the
same `always_true` flag.  Terms are removed with `swap_remove` without
advancing the index. -/
def slhLoop : Nat → Condition → Nat → List (Nat × Condition) → Bool → Bool → Option Nat →
    Option (Condition × List (Nat × Condition) × Option Nat)
  | 0, _, _, _, _, _, _ => none
  | fuel + 1, cond, i, helpers, at', st, lt =>
      if h : i < cond.length then
        match cond.get ⟨i, h⟩ with
        | (op, .condition sub) =>
            match splitLoadHelpers fuel sub helpers at' with
            | none => none
            | some (sub', helpers', subRes) =>
                let condUpd := cond.set i (op, .condition sub')
                match subRes, at' with
                | some tn, true =>
                    slhLoop fuel (listSwapRemove condUpd i) i
                      (helpersAdd helpers' tn (op, .condition sub')) at' st lt
                | _, _ => slhLoop fuel condUpd (i + 1) helpers' at' st lt
        | (op, .constraint c) =>
            match c.refsSingleTable with
            | some tn =>
                let st' := match lt with
                  | some o => if tn ≠ o then false else st
                  | none => st
                if at' then
                  slhLoop fuel (listSwapRemove cond i) i
                    (helpersAdd helpers tn (op, .constraint c)) at' st' (some tn)
                else slhLoop fuel cond (i + 1) helpers at' st' (some tn)
            | none => slhLoop fuel cond (i + 1) helpers at' st lt
      else some (cond, helpers, if st then lt else none)

end

/-- Cartesian product of candidate-ordinal lists, leftmost digit most
significant: for non-empty digit lists this is exactly the tuple sequence
of the mixed-radix counter in `Condition::select` (which pre-checks that
no digit list is empty). -/
def cartProd : List (List α) → List (List α)
  | [] => [[]]
  | l :: ls => l.flatMap fun x => (cartProd ls).map (x :: ·)

/-- Model of `Condition::eval_coords` from `logic.rs`: keep the coordinate
tuples whose joined record satisfies the condition (out-of-range record
lookups panic — `none`). -/
def evalCoords (cond : Condition) (tableCoords : List (List Nat))
    (tables : List MemTable) : Option (List (List Nat))
  := match tableCoords with
  | [] => some []
  | coord :: rest => do
      let joined ← coord.enum.mapM fun p =>
        (tables.get? p.1).bind fun mt => mt.records.get? p.2
      let b ← Condition.evalFrom joined true cond
      let others ← evalCoords cond rest tables
      pure (if b then coord :: others else others)

/-- Model of `Condition::select` from `logic.rs` (for a condition that is
already resolved, as `convert_with` leaves it): split off per-table
helpers, materialize the tables, seed per-table candidate ordinals (index
fast path included), early-return an empty result when a candidate list is
empty, enumerate the cartesian product, evaluate the residual condition,
and build the joined result rows. -/
def Condition.select (fuel : Nat) (cond : Condition) (tables : List Table) :
    Option (Except DBError MemTable) :=
  if tables.length = 0 then some (.error .constraintError)
  else
    match splitLoadHelpers fuel cond [] true with
    | none => none
    | some (residual, helpers, _) =>
        match tables.mapM Table.buildMemTable with
        | .error e => some (.error e)
        | .ok memTables =>
            let newAttributes := (tables.map Table.attributes).flatten
            let perTable : Nat → Option (List Nat) := fun i =>
              (tables.get? i).bind fun tb =>
                match List.lookup i helpers with
                | some hc => hc.filterTableCoords memTables i tb.bst tables
                | none => Condition.filterTableCoords [] memTables i tb.bst tables
            match (List.range tables.length).mapM perTable with
            | none => none
            | some recordNumsVec =>
                if recordNumsVec.any fun l => l.length = 0 then
                  some (MemTable.buildFromRecords [] newAttributes)
                else
                  match evalCoords residual (cartProd recordNumsVec) memTables with
                  | none => none
                  | some selected =>
                      match selected.mapM (fun coord => coord.enum.mapM fun p =>
                          (memTables.get? p.1).bind fun mt => mt.records.get? p.2) with
                      | none => none
                      | some recordsNested =>
                          some (MemTable.buildFromRecords (recordsNested.map List.flatten)
                            newAttributes)

/-! ## Command lexer and dispatcher (`lib.rs`, `db_cmds.rs`) -/

/-- The carriage-return / newline replacement applied by
`CmdIterator::next` when a command is emitted. -/
def replaceCrLf (c : Char) : Char :=
  if c = '\r' ∨ c = '\n' then ' ' else c

/-- Model of `CmdIterator::next` from `lib.rs`: scan for the terminating
semicolon while tracking double-quote and comment state.  `cmd` is the
command text committed so far, `pending` the characters accumulated since
the last commit point (Rust's `pos`-to-`pos + since_last_push` slice):
a `#` outside quotes commits the pending text and starts a comment, a
newline ends a comment and discards the comment text, a double quote
toggles quote state, and a semicolon outside quotes and comments emits the
command with CR/LF replaced by spaces. -/
def cmdIterNext : List Char → List Char → List Char → Bool → Bool → Option (List Char)
  | [], _, _, _, _ => none
  | c :: rest, cmd, pending, dq, com =>
      if c = '#' ∧ dq = false ∧ com = false then
        cmdIterNext rest (cmd ++ pending) (pending ++ [c]) dq true
      else if c = '\n' ∧ com = true then
        cmdIterNext rest cmd ['\n'] dq false
      else if c = '"' ∧ com = false then
        cmdIterNext rest cmd (pending ++ [c]) (!dq) com
      else if c = ';' ∧ dq = false ∧ com = false then
        some (cmd ++ pending.map replaceCrLf)
      else
        cmdIterNext rest cmd (pending ++ [c]) dq com

/-- First command yielded by the iterator over a script. -/
def dispatcherFirstCmd (text : List Char) : Option (List Char) :=
  cmdIterNext text [] [] false false

/-- Model of the first line of `run_cmd` in `db_cmds.rs`
(`let cmd = cmd.to_lowercase();`): the whole command — double-quoted
literals included — is lowercased before any executor sees it.  (Rust's
`to_lowercase` is Unicode; `Char.toLower` agrees with it on ASCII, which
is all the surrounding engine accepts.) -/
def runCmdCaseFold (cmd : List Char) : List Char :=
  cmd.map Char.toLower

/-! ## Specification-side definitions -/

/-- Table indices referenced by a constraint's operands
(specification-side, for stating the planner claims). -/
def Constraint.refTables (c : Constraint) : List Nat :=
  (match c.leftOp with
   | .attribute i _ => [i]
   | .value _ => []) ++
  (match c.rightOp with
   | .attribute i _ => [i]
   | .value _ => [])

/-- Specification-side selection semantics: the joined rows of the full
cartesian product of the tables' record lists that satisfy the condition
(`none` if the condition's evaluation is undefined on some joined
record). -/
def specSelectRows (cond : Condition) : List (List (List Data)) → Option (List (List Data))
  | tablesRecords =>
      let rec go : List (List (List Data)) → Option (List (List Data))
        | [] => some []
        | j :: js => do
            let b ← Condition.evalFrom j true cond
            let rest ← go js
            pure (if b then j.flatten :: rest else rest)
      go (cartProd tablesRecords)

/-- Well-formedness of a constraint against a single-table schema: both
operands resolve within table 0 of the given attribute list and share a
domain (this is what a successful `convert_with` against one table
guarantees). -/
def Constraint.wf1 (attrs : List (String × Domain)) (c : Constraint) : Prop :=
  ∃ dom : Domain,
    (match c.leftOp with
     | .attribute t j => t = 0 ∧ (attrs.get? j).map Prod.snd = some dom
     | .value d => d.domain = dom) ∧
    (match c.rightOp with
     | .attribute t j => t = 0 ∧ (attrs.get? j).map Prod.snd = some dom
     | .value d => d.domain = dom)

/-- A record conforms to a schema: equal length and matching domains
position-wise. -/
def recordWF (attrs : List (String × Domain)) (r : List Data) : Prop :=
  List.Forall₂ (fun (v : Data) (a : String × Domain) => v.domain = a.2) r attrs

/-- The invariant every constructed value satisfies: `Text::from` rejects
contents longer than 100 bytes. -/
def Data.wf : Data → Prop
  | .text s => s.length ≤ 100
  | _ => True

/-! ## Concrete instances used by the claim theorems -/

/-- A one-record table `a(a integer)` holding the row `(1)`, no index. -/
def tblA : Table := ⟨[("a", .integer)], 1, none, none, i32ToBytes 1⟩

/-- A one-record table `b(b integer)` holding the row `(2)`, no index. -/
def tblB : Table := ⟨[("b", .integer)], 1, none, none, i32ToBytes 2⟩

/-- The resolved constraint `a = 1` (attribute `(0,0)` against the literal). -/
def cnA1 : Constraint := ⟨.attribute 0 0, .equals, .value (.integer 1)⟩

/-- The resolved constraint `b = 2` (attribute `(1,0)` against the literal). -/
def cnB2 : Constraint := ⟨.attribute 1 0, .equals, .value (.integer 2)⟩

/-- The resolved cross-table constraint `a = b` (attributes `(0,0)` and `(1,0)`). -/
def cnAB : Constraint := ⟨.attribute 0 0, .equals, .attribute 1 0⟩

/-- The resolved condition `a = 1 and a = b` over tables `[a, b]`. -/
def condPlanner : Condition := [(.and, .constraint cnA1), (.and, .constraint cnAB)]

/-- The resolved condition `(b = 2 and a = b)` over tables `[a, b]` — a
single parenthesized sub-condition. -/
def condSelect : Condition :=
  [(.and, .condition [(.and, .constraint cnB2), (.and, .constraint cnAB)])]

/-- Index of the table `upd(a integer, k integer primary key)`:
`(10 ↦ 0, 20 ↦ 1)`. -/
def updBst : BST := .node (.integer 10) 0 .leaf (.node (.integer 20) 1 .leaf .leaf)

/-- The table `upd(a integer, k integer primary key)` — primary key at
attribute position 1, as produced by `LET … KEY k SELECT a, k …` — with
records `(1, 10)` and `(2, 20)`. -/
def tblUpd : Table :=
  ⟨[("a", .integer), ("k", .integer)], 2, some updBst, some 1,
    i32ToBytes 1 ++ i32ToBytes 10 ++ i32ToBytes 2 ++ i32ToBytes 20⟩

/-- `tblUpd` after `UPDATE upd SET k = 5` (no `WHERE`): both records
rewritten in place, the index untouched. -/
def tblUpdAfter : Table :=
  { tblUpd with fileData := i32ToBytes 1 ++ i32ToBytes 5 ++ i32ToBytes 2 ++ i32ToBytes 5 }

/-- A one-record indexed table `dup(k integer primary key)` holding the
row `(7)`, its index mapping `7 ↦ 0`. -/
def tblDup : Table :=
  ⟨[("k", .integer)], 1, some (.node (.integer 7) 0 .leaf .leaf), some 0, i32ToBytes 7⟩

/-- A keyless two-attribute table `loose(x integer, s text)` with no
records. -/
def tblLoose : Table := ⟨[("x", .integer), ("s", .text)], 0, none, none, []⟩

/-- The resolved single-table condition `k = 5` over `dup(k integer primary
key)` — it matches no stored record of `tblDup`. -/
def condNoMatch : Condition :=
  [(.and, .constraint ⟨.attribute 0 0, .equals, .value (.integer 5)⟩)]

/-- A single-node index tree whose key is the two-byte text `"ab"`. -/
def textKeyTree : BST := .node (.text [97, 98]) 0 .leaf .leaf

/-- The script `select x from t where y = "Ab";` as fed to the command
iterator. -/
def exScript : List Char := "select x from t where y = \"Ab\";".toList

/-- The first command the iterator yields from `exScript`. -/
def exCmd : List Char := "select x from t where y = \"Ab\"".toList

/-! ## General lemmas -/

theorem tmod100_bounds (c : Int) :
    -100 < c - 100 * c.tdiv 100 ∧ c - 100 * c.tdiv 100 < 100 := by
  have h := Int.tdiv_add_tmod c 100
  have h1 : c.tmod 100 < 100 := Int.tmod_lt_of_pos c (by norm_num)
  have h2 : -100 < c.tmod 100 := by
    rcases le_or_lt 0 c with hc | hc
    · have := Int.tmod_nonneg 100 hc
      omega
    · have hneg : c.tmod 100 = -((-c).tmod 100) := by
        rw [Int.tmod_def, Int.tmod_def, Int.neg_tdiv]
        ring
      have := Int.tmod_nonneg (a := -c) 100 (by omega)
      have := Int.tmod_lt_of_pos (-c) (b := 100) (by norm_num)
      omega
  omega

theorem i32_roundtrip (v : Int) (h1 : -(2 ^ 31 : Int) ≤ v) (h2 : v < 2 ^ 31) :
    i32FromBytes ((v % (2 ^ 32 : Int)).toNat / 2 ^ 24 % 256)
      ((v % (2 ^ 32 : Int)).toNat / 2 ^ 16 % 256)
      ((v % (2 ^ 32 : Int)).toNat / 2 ^ 8 % 256)
      ((v % (2 ^ 32 : Int)).toNat % 256) = v := by
  simp only [i32FromBytes]
  omega

theorem dataCmp_eq {a b : Data} (h : dataCmp a b = some .eq) : a = b := by
  cases a <;> cases b <;> simp only [dataCmp] at h
  all_goals try exact Option.noConfusion h
  all_goals
    have h' := Option.some.inj h
    rw [compare_eq_iff_eq.mp h']

theorem dataCmp_refl (a : Data) : dataCmp a a = some .eq := by
  cases a <;> simp [dataCmp, compare_eq_iff_eq.mpr rfl]

/-! ## Claim C8 — float codec round trip -/

/-- C8: for every two-decimal float value (represented exactly by its
hundredths, with the truncated integer part in `i32` range), decoding the
5-byte encoding returns the original value: the encoder stores the
truncated signed integer part big-endian and picks the fifth byte so that
the decoding rule (`byte ∈ [0,99]` positive fraction, `byte ∈ [101,199]`
negative fraction) reproduces the value. -/
theorem float_codec_roundtrip (c : Int) (h1 : -(2 ^ 31 : Int) ≤ c.tdiv 100)
    (h2 : c.tdiv 100 < (2 ^ 31 : Int)) :
    Data.fromBytes (Data.asBytes (.float c)) = .ok (.float c) := by
  have hb := tmod100_bounds c
  have hi32 := i32_roundtrip (c.tdiv 100) h1 h2
  simp only [Data.asBytes, floatToBytes, i32ToBytes, List.cons_append, List.nil_append,
    Data.fromBytes, floatFromBytes]
  rw [hi32]
  by_cases hf0 : c - 100 * c.tdiv 100 < 0
  · rw [if_pos hf0, if_neg (by omega), if_pos (by omega)]
    simp only [Except.map, Except.ok.injEq, Data.float.injEq]
    omega
  · rw [if_neg hf0, if_neg (by omega), if_neg (by omega)]
    simp only [Except.map, Except.ok.injEq, Data.float.injEq]
    omega

/-- Witness for C8 at the seven two-decimal values listed by the claim. -/
theorem float_codec_roundtrip_witness :
    (-(2 ^ 31 : Int) ≤ (-410 : Int).tdiv 100 ∧ (-410 : Int).tdiv 100 < (2 ^ 31 : Int)) ∧
    Data.fromBytes (Data.asBytes (.float (-410))) = .ok (.float (-410)) ∧
    Data.fromBytes (Data.asBytes (.float (-5))) = .ok (.float (-5)) ∧
    Data.fromBytes (Data.asBytes (.float 0)) = .ok (.float 0) ∧
    Data.fromBytes (Data.asBytes (.float 1)) = .ok (.float 1) ∧
    Data.fromBytes (Data.asBytes (.float 314)) = .ok (.float 314) ∧
    Data.fromBytes (Data.asBytes (.float 1000)) = .ok (.float 1000) ∧
    Data.fromBytes (Data.asBytes (.float (-1234567))) = .ok (.float (-1234567)) :=
  ⟨⟨by decide, by decide⟩,
   float_codec_roundtrip (-410) (by decide) (by decide),
   float_codec_roundtrip (-5) (by decide) (by decide),
   float_codec_roundtrip 0 (by decide) (by decide),
   float_codec_roundtrip 1 (by decide) (by decide),
   float_codec_roundtrip 314 (by decide) (by decide),
   float_codec_roundtrip 1000 (by decide) (by decide),
   float_codec_roundtrip (-1234567) (by decide) (by decide)⟩

/-! ## Claim C7 — float-to-string formatting -/

/-- C7 counterexample: the value `-0.05` does NOT render as `"-0.05"`; the
formatter prints the fractional magnitude without zero padding and
produces `"-0.5"`. -/
theorem float_to_string_cex :
    floatToString (-5) = "-0.5" ∧ floatToString (-5) ≠ "-0.05" := by
  constructor
  · rfl
  · decide

/-- C7 (amended): `-0.05` renders as `"-0.5"` (single-digit fractional
magnitudes are not zero-padded), `3.10` renders as `"3.10"`, and every
negative value whose truncated integer part is zero renders with an
explicit `-` before `0.`. -/
theorem float_to_string_amended :
    floatToString (-5) = "-0.5" ∧ floatToString 310 = "3.10" ∧
    ∀ c : Int, -100 < c → c < 0 →
      floatToString c = "-0." ++ toString (-c).toNat := by
  refine ⟨rfl, rfl, fun c h1 h2 => ?_⟩
  have h3 : (-c).tdiv 100 = 0 := Int.tdiv_eq_zero_of_lt (by omega) (by omega)
  have h4 : c.tdiv 100 = 0 := by
    have h5 := Int.neg_tdiv (-c) 100
    simp only [neg_neg] at h5
    omega
  simp only [floatToString, h4, mul_zero, sub_zero, if_pos h2, if_pos rfl]
  rw [show (("-" ++ toString (0 : Int)) ++ "." : String) = "-0." from rfl]
  simp

/-- Witness for the amended C7 at the input `-0.07`. -/
theorem float_to_string_amended_witness :
    ((-100 : Int) < -7 ∧ (-7 : Int) < 0) ∧
    floatToString (-7) = "-0." ++ toString ((7 : Int)).toNat :=
  ⟨⟨by decide, by decide⟩, by
    have h := float_to_string_amended.2.2 (-7) (by decide) (by decide)
    simpa using h⟩

/-! ## Claim C4 — duplicate-key insert leaves the table unchanged -/

theorem insertGo_error_of_found {t : BST} {k : Data} {n : Nat}
    (h : t.find? k = some (some n)) (d : Nat) :
    t.insertGo k d = some (.error .bstInsertError) := by
  induction t with
  | leaf => simp [BST.find?] at h
  | node k' d' l r ihl ihr =>
      cases hc : dataCmp k k' with
      | none =>
          simp only [BST.find?, hc] at h
          exact Option.noConfusion h
      | some o =>
          cases o with
          | eq => simp [BST.insertGo, hc]
          | lt =>
              simp only [BST.find?, hc] at h
              simp [BST.insertGo, hc, ihl h, Except.map]
          | gt =>
              simp only [BST.find?, hc] at h
              simp [BST.insertGo, hc, ihr h, Except.map]

theorem bst_insert_error_of_found {t : BST} {k : Data} {n : Nat}
    (h : t.find? k = some (some n)) (d : Nat) :
    t.insert k d = some (.error .bstInsertError) := by
  unfold BST.insert
  split
  · rfl
  · exact insertGo_error_of_found h d

/-- C4: on an indexed table, writing a record whose key value is already
present in the index fails with the duplicate-key insert error and leaves
the whole table state — the backing file bytes and the in-memory
`record_count` (and the index itself) — unchanged: the index insert is
attempted before any byte is appended. -/
theorem write_record_duplicate_key (t : Table) (record : List Data) (b : BST)
    (key : Data) (kn n : Nat) (bytes : List Nat)
    (hb : t.bst = some b) (hkn : t.keyAttriNum = some kn)
    (hkey : record.get? kn = some key)
    (henc : encodeRecord record t.attributes = .ok bytes)
    (hfind : b.find? key = some (some n)) :
    t.writeRecord record = some (.error .bstInsertError, t) := by
  simp only [Table.writeRecord, henc, hb, hkn, hkey,
    bst_insert_error_of_found hfind t.recordCount]

/-- Witness for C4: inserting a second row with key `7` into `tblDup`. -/
theorem write_record_duplicate_key_witness :
    (tblDup.bst = some (.node (.integer 7) 0 .leaf .leaf) ∧
     tblDup.keyAttriNum = some 0 ∧
     [Data.integer 7].get? 0 = some (.integer 7) ∧
     encodeRecord [Data.integer 7] tblDup.attributes = .ok (i32ToBytes 7) ∧
     (BST.node (.integer 7) 0 .leaf .leaf).find? (.integer 7) = some (some 0)) ∧
    tblDup.writeRecord [.integer 7] = some (.error .bstInsertError, tblDup) :=
  ⟨⟨rfl, rfl, rfl, rfl, by decide⟩,
   write_record_duplicate_key tblDup [.integer 7] (.node (.integer 7) 0 .leaf .leaf)
     (.integer 7) 0 0 (i32ToBytes 7) rfl rfl rfl rfl (by decide)⟩

/-! ## Claim C5 — index write/read round trip -/

/-- C5 (code bug): persisting a tree whose key is the text `"ab"` and
reloading it does not reproduce the `(key, payload)` pairs — the
5-byte space padding of `Data::as_bytes` collides with the Float width, so
the reloaded tree carries a Float key instead of the Text key. -/
theorem bst_write_read_text_key_cex :
    BST.readFromBytes (BST.writeBytes textKeyTree) =
      some (.ok (.node (.float 163382070432) 0 .leaf .leaf)) ∧
    (BST.node (.float 163382070432) 0 .leaf .leaf).pairs ≠ textKeyTree.pairs :=
  ⟨rfl, by decide⟩

/-! ## Claim C6 — case folding of commands -/

theorem char_toLower_not_upper (c : Char) : (c.toLower).isUpper = false := by
  have hle : ∀ a b : UInt32, (a ≤ b) ↔ a.toNat ≤ b.toNat := fun a b => Iff.rfl
  have h65 : (65 : UInt32).toNat = 65 := rfl
  have h90 : (90 : UInt32).toNat = 90 := rfl
  simp only [Char.toLower, Char.isUpper, Char.toNat]
  split
  · next h =>
      obtain ⟨h1, h2⟩ := h
      have hvalid : Nat.isValidChar (c.val.toNat + 32) := by
        left
        omega
      have hval : (Char.ofNat (c.val.toNat + 32)).val.toNat = c.val.toNat + 32 := by
        rw [Char.ofNat, dif_pos hvalid]
        rfl
      simp only [Bool.and_eq_false_iff, decide_eq_false_iff_not]
      right
      intro hc
      rw [hle, hval, h90] at hc
      omega
  · next h =>
      rw [not_and_or] at h
      simp only [Bool.and_eq_false_iff, decide_eq_false_iff_not]
      rcases h with h | h
      · left
        intro hc
        rw [GE.ge, hle, h65] at hc
        exact h hc
      · right
        intro hc
        rw [hle, h90] at hc
        exact h hc

/-- C6 counterexample: the command iterator yields the command with the
quoted literal's case intact (`"Ab"`), but `run_cmd` lowercases the whole
command — the executors receive `"ab"`, so characters inside double
quotes do NOT reach them with their original case. -/
theorem dispatcher_case_fold_cex :
    dispatcherFirstCmd exScript = some exCmd ∧
    runCmdCaseFold exCmd = "select x from t where y = \"ab\"".toList ∧
    runCmdCaseFold exCmd ≠ exCmd :=
  ⟨rfl, rfl, by decide⟩

/-- C6 (amended): every command consumed by the dispatcher is case-folded
to lowercase throughout, double-quoted text literals included — no
uppercase (ASCII) character survives to the executors. -/
theorem dispatcher_case_fold_amended :
    ∀ text cmd, dispatcherFirstCmd text = some cmd →
      ∀ c ∈ runCmdCaseFold cmd, c.isUpper = false := by
  intro text cmd _ c hc
  simp only [runCmdCaseFold, List.mem_map] at hc
  obtain ⟨c', _, rfl⟩ := hc
  exact char_toLower_not_upper c'

/-- Witness for the amended C6 on the example script. -/
theorem dispatcher_case_fold_amended_witness :
    dispatcherFirstCmd exScript = some exCmd ∧ Char.isUpper 'a' = false :=
  ⟨rfl, dispatcher_case_fold_amended exScript exCmd rfl 'a' (by decide)⟩

/-! ## Claim C3 — multi-row key update guard -/

/-- C3 (code bug): on the table `upd(a integer, k integer primary key)` —
primary key at attribute position 1 — an `UPDATE` that sets `k` and whose
condition matches both records does NOT fail with `ConstraintError`: the
guard in `update_all` compares the assignment identifiers against
`attributes[0]` (here `a`) instead of the key attribute, so both records
are rewritten in place (to the same key value 5) and `Ok` is returned; the
index is not even consulted because `update_record` compares `record[0]`
rather than the key column. -/
theorem update_all_key_position_cex :
    tblUpd.keyAttriNum = some 1 ∧
    tblUpd.bst.isSome = true ∧
    tblUpd.readAllData = .ok [[.integer 1, .integer 10], [.integer 2, .integer 20]] ∧
    tblUpd.updateAll [] [("k", .integer 5)] = some (.ok (), tblUpdAfter) ∧
    tblUpdAfter.readAllData = .ok [[.integer 1, .integer 5], [.integer 2, .integer 5]] ∧
    tblUpdAfter.bst = tblUpd.bst :=
  ⟨rfl, rfl, rfl, rfl, rfl, rfl⟩

/-! ## Claim C2 — the planner's single-table verdict -/

/-- C2 (code bug): on the resolved condition `a = 1 and a = b` over the
tables `[a, b]`, `split_load_helpers` extracts `a = 1` into table 0's
helper and returns `Some 0` — yet the surviving term `a = b` references
table 1 as well (its referenced-table set is `[0, 1]`), so the claimed
"every surviving term references the same single table" does not hold:
the loop only tracks constraints that `refs_single_table` resolves,
ignoring surviving cross-table constraints and nested sub-conditions. -/
theorem split_load_helpers_verdict_cex :
    splitLoadHelpers 10 condPlanner [] true =
      some ([(.and, .constraint cnAB)], [(0, [(.and, .constraint cnA1)])], some 0) ∧
    cnAB.refTables = [0, 1] :=
  ⟨rfl, rfl⟩

/-! ## Claim C1 — the optimized selection pipeline -/

/-- C1 (code bug): for the resolved condition `(b = 2 and a = b)` over the
tables `[a, b]`, the nested sub-condition is (wrongly, see C2) reported as
single-table for table 1 and extracted whole into table 1's helper
although `a = b` references table 0; filtering table 1's candidates then
evaluates `a = b` against a joined record whose slot 0 is the empty
placeholder, which panics (out-of-bounds index — `none`), while the
specification-side semantics — filter the cartesian product of the two
tables' records by the full condition — yields the well-defined empty
result. -/
theorem select_extracted_helper_panics_cex :
    tblA.readAllData = .ok [[.integer 1]] ∧
    tblB.readAllData = .ok [[.integer 2]] ∧
    Condition.select 10 condSelect [tblA, tblB] = none ∧
    specSelectRows condSelect [[[.integer 1]], [[.integer 2]]] = some [] :=
  ⟨rfl, rfl, rfl, rfl⟩

/-! ## Claim C10 — keyless tables skip record-length validation -/

theorem encodeValue_length {v : Data} {d : Domain} {bs : List Nat}
    (hwf : v.wf) (h : encodeValue v d = some bs) : bs.length = d.sizeInBytes := by
  cases v <;> cases d <;> simp only [encodeValue] at h
  all_goals try exact Option.noConfusion h
  · rw [← Option.some.inj h]
    rfl
  · rw [← Option.some.inj h]
    simp [floatToBytes, i32ToBytes, Domain.sizeInBytes]
  · rw [← Option.some.inj h]
    simp only [Data.wf] at hwf
    simp [textToBytes, Domain.sizeInBytes]
    omega

theorem encodeRecord_matches :
    ∀ (vs : List Data) (attrs : List (String × Domain)),
      (∀ v ∈ vs, v.wf) →
      (∀ p ∈ vs.zip attrs, (encodeValue p.1 p.2.2).isSome) →
      ∃ bytes, encodeRecord vs attrs = .ok bytes ∧
        bytes.length = ((attrs.take vs.length).map fun a => a.2.sizeInBytes).sum
  | [], attrs, _, _ => ⟨[], rfl, by simp⟩
  | v :: vs, [], _, _ => ⟨[], rfl, by simp⟩
  | v :: vs, a :: attrs, hwf, hmatch => by
      have hhead : (encodeValue v a.2).isSome :=
        hmatch (v, a) (by simp [List.zip_cons_cons])
      obtain ⟨bs, hbs⟩ := Option.isSome_iff_exists.mp hhead
      obtain ⟨rest, hrest, hlen⟩ := encodeRecord_matches vs attrs
        (fun w hw => hwf w (List.mem_cons_of_mem v hw))
        (fun p hp => hmatch p (by simp [List.zip_cons_cons, hp]))
      refine ⟨bs ++ rest, ?_, ?_⟩
      · simp [encodeRecord, hbs, hrest, Except.map]
      · simp [hlen, encodeValue_length (hwf v (List.mem_cons_self v vs)) hbs]

theorem encodeRecord_error :
    ∀ (vs : List Data) (attrs : List (String × Domain)) (e : DBError),
      encodeRecord vs attrs = .error e →
      e = .constraintError ∧ ∃ p ∈ vs.zip attrs, encodeValue p.1 p.2.2 = none
  | [], _, _, h => Except.noConfusion h
  | _ :: _, [], _, h => Except.noConfusion h
  | v :: vs, a :: attrs, e, h => by
      cases hv : encodeValue v a.2 with
      | none =>
          simp only [encodeRecord, hv] at h
          exact ⟨(Except.error.inj h).symm, (v, a), by simp [List.zip_cons_cons], hv⟩
      | some bs =>
          simp only [encodeRecord, hv] at h
          cases hrec : encodeRecord vs attrs with
          | ok rest => rw [hrec] at h; exact Except.noConfusion h
          | error e' =>
              obtain ⟨he', p, hp, hpn⟩ := encodeRecord_error vs attrs e' hrec
              subst he'
              rw [hrec] at h
              simp only [Except.map] at h
              exact ⟨(Except.error.inj h).symm, p, by simp [List.zip_cons_cons, hp], hpn⟩

/-- C10: on a keyless table, `write_record` performs no record-length
validation — a non-empty record with fewer values than attributes, each
value matching its positional attribute's domain, is accepted, appends
strictly fewer than `record_length` bytes and increments `record_count`;
and `write_record` returns `ConstraintError` exactly when (and only when)
some provided value's domain mismatches its positional attribute. -/
theorem write_record_keyless (t : Table) (record : List Data)
    (hkeyless : t.bst = none) (_hne : record ≠ [])
    (hshort : record.length < t.attributes.length)
    (hwf : ∀ v ∈ record, v.wf) :
    ((∀ p ∈ record.zip t.attributes, (encodeValue p.1 p.2.2).isSome) →
      ∃ bytes, encodeRecord record t.attributes = .ok bytes ∧
        bytes.length < t.recordLength ∧
        t.writeRecord record = some (.ok (),
          { t with
            recordCount := t.recordCount + 1,
            fileData := t.fileData ++ bytes })) ∧
    (∀ e t', t.writeRecord record = some (.error e, t') →
      e = .constraintError ∧ ∃ p ∈ record.zip t.attributes, encodeValue p.1 p.2.2 = none) := by
  constructor
  · intro hmatch
    obtain ⟨bytes, hok, hlen⟩ := encodeRecord_matches record t.attributes hwf hmatch
    refine ⟨bytes, hok, ?_, ?_⟩
    · have hsplit : t.attributes = t.attributes.take record.length ++
          t.attributes.drop record.length := (List.take_append_drop _ _).symm
      have hdroplen : 0 < (t.attributes.drop record.length).length := by
        simp only [List.length_drop]
        omega
      obtain ⟨x, xs, hxs⟩ : ∃ x xs, t.attributes.drop record.length = x :: xs := by
        cases hd : t.attributes.drop record.length with
        | nil => rw [hd] at hdroplen; simp at hdroplen
        | cons x xs => exact ⟨x, xs, rfl⟩
      have hpos : 0 < x.2.sizeInBytes := by
        cases x.2 <;> simp [Domain.sizeInBytes]
      calc bytes.length
          = ((t.attributes.take record.length).map fun a => a.2.sizeInBytes).sum := hlen
        _ < ((t.attributes.take record.length).map fun a => a.2.sizeInBytes).sum
            + ((x :: xs).map fun a => a.2.sizeInBytes).sum := by
              simp only [List.map_cons, List.sum_cons]
              omega
        _ = t.recordLength := by
              rw [Table.recordLength]
              conv_rhs => rw [hsplit]
              rw [hxs, List.map_append, List.sum_append]
    · simp [Table.writeRecord, hok, hkeyless]
  · intro e t' h
    cases henc : encodeRecord record t.attributes with
    | error e' =>
        simp only [Table.writeRecord, henc] at h
        obtain ⟨h1, h2⟩ := Prod.mk.inj (Option.some.inj h)
        rw [← Except.error.inj h1]
        exact encodeRecord_error record t.attributes e' henc
    | ok bytes =>
        simp only [Table.writeRecord, henc, hkeyless] at h
        exact Except.noConfusion (Prod.mk.inj (Option.some.inj h)).1

/-- Witness for C10: inserting the single-value record `(3)` into the
keyless two-attribute table `loose(x integer, s text)`. -/
theorem write_record_keyless_witness :
    ∃ bytes, encodeRecord [Data.integer 3] tblLoose.attributes = .ok bytes ∧
      bytes.length < tblLoose.recordLength ∧
      tblLoose.writeRecord [Data.integer 3] = some (.ok (),
        { tblLoose with
          recordCount := tblLoose.recordCount + 1,
          fileData := tblLoose.fileData ++ bytes }) :=
  (write_record_keyless tblLoose [Data.integer 3] rfl (by decide) (by decide)
    (by
      intro v hv
      rw [List.mem_singleton] at hv
      subst hv
      trivial)).1
    (by decide)

/-! ## Claim C9 — a delete that matches nothing changes nothing -/

theorem dataCmp_total {a b : Data} (h : a.domain = b.domain) :
    (dataCmp a b).isSome := by
  cases a <;> cases b <;> simp_all [Data.domain, dataCmp]

theorem recordWF_get {attrs : List (String × Domain)} {r : List Data}
    (hwf : recordWF attrs r) :
    ∀ {j : Nat} {a : String × Domain}, attrs.get? j = some a →
      ∃ v, r.get? j = some v ∧ v.domain = a.2 := by
  induction hwf with
  | nil =>
      intro j a h
      simp at h
  | cons hrel _ ih =>
      intro j a h
      cases j with
      | zero =>
          refine ⟨_, rfl, ?_⟩
          rw [Option.some.inj h] at hrel
          exact hrel
      | succ j => exact ih h

theorem constraint_eval_total {attrs : List (String × Domain)} {r : List Data}
    {c : Constraint} (hr : recordWF attrs r) (hwf : c.wf1 attrs) :
    ∃ b, c.eval [r] = some b := by
  obtain ⟨dom, hl, hr'⟩ := hwf
  have hresolve : ∀ op : Operand,
      (match op with
       | .attribute t j => t = 0 ∧ (attrs.get? j).map Prod.snd = some dom
       | .value d => d.domain = dom) →
      ∃ v, op.evalData [r] = some v ∧ v.domain = dom := by
    intro op hop
    rcases op with ⟨t, j⟩ | d
    · obtain ⟨ht, hj⟩ := hop
      subst ht
      cases ha : attrs.get? j with
      | none =>
          rw [ha] at hj
          exact Option.noConfusion hj
      | some a =>
          rw [ha] at hj
          obtain ⟨v, hv, hvd⟩ := recordWF_get hr ha
          refine ⟨v, ?_, ?_⟩
          · rw [List.get?_eq_getElem?] at hv
            simpa [Operand.evalData] using hv
          · rw [hvd]
            exact Option.some.inj hj
    · exact ⟨d, rfl, hop⟩
  obtain ⟨vl, hvl, hvld⟩ := hresolve c.leftOp hl
  obtain ⟨vr, hvr, hvrd⟩ := hresolve c.rightOp hr'
  have hcmp : (dataCmp vl vr).isSome := dataCmp_total (by rw [hvld, hvrd])
  obtain ⟨o, ho⟩ := Option.isSome_iff_exists.mp hcmp
  exact ⟨c.relOp.apply o, by simp [Constraint.eval, hvl, hvr, ho]⟩

theorem constraints_sub {l : Condition} {p : LogOp × BoolEval} (hp : p ∈ l) :
    ∀ c ∈ p.2.constraints, c ∈ Condition.constraintsOf l := by
  induction l with
  | nil => simp at hp
  | cons q rest ih =>
      intro c hc
      rcases List.mem_cons.mp hp with h | h
      · subst h
        simp [Condition.constraintsOf, hc]
      · simp [Condition.constraintsOf, ih h c hc]

mutual

theorem BoolEval.eval_total {attrs : List (String × Domain)} {r : List Data}
    (hr : recordWF attrs r) :
    ∀ be : BoolEval, (∀ c ∈ be.constraints, c.wf1 attrs) →
      ∃ b, be.eval [r] = some b
  | .constraint c, hwf => by
      simp only [BoolEval.eval]
      exact constraint_eval_total hr (hwf c (by simp [BoolEval.constraints]))
  | .condition l, hwf => by
      simp only [BoolEval.eval]
      exact Condition.evalFrom_total hr l true
        (by simpa [BoolEval.constraints] using hwf)

theorem Condition.evalFrom_total {attrs : List (String × Domain)} {r : List Data}
    (hr : recordWF attrs r) :
    ∀ (l : Condition) (curr : Bool),
      (∀ c ∈ Condition.constraintsOf l, c.wf1 attrs) →
      ∃ b, Condition.evalFrom [r] curr l = some b
  | [], curr, _ => ⟨curr, rfl⟩
  | (op, be) :: rest, curr, hwf => by
      have hbe : ∀ c ∈ be.constraints, c.wf1 attrs := fun c hc =>
        hwf c (by simp [Condition.constraintsOf, hc])
      have hrest : ∀ c ∈ Condition.constraintsOf rest, c.wf1 attrs := fun c hc =>
        hwf c (by simp [Condition.constraintsOf, hc])
      obtain ⟨b, hb⟩ := BoolEval.eval_total hr be hbe
      obtain ⟨b1, hb1⟩ := Condition.evalFrom_total hr rest b hrest
      obtain ⟨b2, hb2⟩ := Condition.evalFrom_total hr rest false hrest
      cases op <;> cases curr
      · exact ⟨b2, by simpa [Condition.evalFrom] using hb2⟩
      · exact ⟨b1, by simp [Condition.evalFrom, hb, hb1]⟩
      · exact ⟨b1, by simp [Condition.evalFrom, hb, hb1]⟩
      · exact ⟨true, by simp [Condition.evalFrom]⟩

end

theorem evalFrom_false_andOnly {joined : List (List Data)} {l : Condition}
    (hand : ∀ p ∈ l, p.1 = LogOp.and) :
    Condition.evalFrom joined false l = some false := by
  induction l with
  | nil => rfl
  | cons p rest ih =>
      obtain ⟨op, be⟩ := p
      have hop : op = LogOp.and := hand (op, be) (by simp)
      subst hop
      simpa [Condition.evalFrom] using ih fun q hq => hand q (by simp [hq])

theorem evalFrom_and_all {joined : List (List Data)} {l : Condition}
    (hand : ∀ p ∈ l, p.1 = LogOp.and)
    (htot : ∀ p ∈ l, (BoolEval.eval joined p.2).isSome) :
    Condition.evalFrom joined true l =
      some (l.all fun p => p.2.eval joined == some true) := by
  induction l with
  | nil => rfl
  | cons p rest ih =>
      obtain ⟨op, be⟩ := p
      have hop : op = LogOp.and := hand (op, be) (by simp)
      subst hop
      obtain ⟨b, hb⟩ := Option.isSome_iff_exists.mp (htot (LogOp.and, be) (by simp))
      have hand' : ∀ q ∈ rest, q.1 = LogOp.and := fun q hq => hand q (by simp [hq])
      have htot' : ∀ q ∈ rest, (BoolEval.eval joined q.2).isSome := fun q hq =>
        htot q (by simp [hq])
      cases b with
      | true => simp [Condition.evalFrom, hb, ih hand' htot', List.all_cons]
      | false =>
          simp [Condition.evalFrom, hb, evalFrom_false_andOnly hand', List.all_cons]

theorem getData_eq_pairs (b : BST) : b.getData = b.pairs.map Prod.snd := by
  induction b with
  | leaf => rfl
  | node k d l r ihl ihr => simp [BST.getData, BST.pairs, ihl, ihr]

theorem find?_mem {b : BST} {k : Data} {n : Nat} (h : b.find? k = some (some n)) :
    (k, n) ∈ b.pairs := by
  induction b with
  | leaf =>
      simp only [BST.find?] at h
      exact Option.noConfusion (Option.some.inj h)
  | node k' d l r ihl ihr =>
      cases hc : dataCmp k k' with
      | none =>
          rw [BST.find?, hc] at h
          exact Option.noConfusion h
      | some o =>
          cases o with
          | eq =>
              rw [BST.find?, hc] at h
              have hk := dataCmp_eq hc
              have hd := Option.some.inj (Option.some.inj h)
              subst hk hd
              simp [BST.pairs]
          | lt =>
              rw [BST.find?, hc] at h
              simp [BST.pairs, ihl h]
          | gt =>
              rw [BST.find?, hc] at h
              simp [BST.pairs, ihr h]

theorem find?_total {b : BST} {k : Data}
    (hdom : ∀ pr ∈ b.pairs, (pr.1 : Data).domain = k.domain) :
    (b.find? k).isSome := by
  induction b with
  | leaf => simp [BST.find?]
  | node k' d l r ihl ihr =>
      have hroot : k'.domain = k.domain := hdom (k', d) (by simp [BST.pairs])
      obtain ⟨o, ho⟩ := Option.isSome_iff_exists.mp (dataCmp_total hroot.symm)
      cases o with
      | eq => simp [BST.find?, ho]
      | lt =>
          rw [BST.find?, ho]
          exact ihl fun pr hpr => hdom pr (by simp [BST.pairs, hpr])
      | gt =>
          rw [BST.find?, ho]
          exact ihr fun pr hpr => hdom pr (by simp [BST.pairs, hpr])

theorem listSwapRemove_perm {α : Type _} (l : List α) (i : Nat) (h : i < l.length) :
    l.Perm (l.get ⟨i, h⟩ :: listSwapRemove l i) := by
  have hne : l ≠ [] := by
    intro h0
    subst h0
    simp at h
  obtain ⟨last, hlast⟩ : ∃ x, l.getLast? = some x := by
    cases hl : l.getLast? with
    | none => exact absurd (List.getLast?_eq_none_iff.mp hl) hne
    | some x => exact ⟨x, rfl⟩
  have hsw : listSwapRemove l i = (l.set i last).dropLast := by
    unfold listSwapRemove
    rw [hlast]
  rw [hsw, List.set_eq_take_cons_drop last h]
  have hdecomp : l = l.take i ++ l.get ⟨i, h⟩ :: l.drop (i + 1) := by
    rw [List.get_eq_getElem]
    conv_lhs => rw [← List.take_append_drop i l]
    rw [← List.getElem_cons_drop l i h]
  cases hd : l.drop (i + 1) with
  | nil =>
      have hlget : last = l.get ⟨i, h⟩ := by
        have hX : l.getLast? = some (l.get ⟨i, h⟩) := by
          conv_lhs => rw [hdecomp, hd]
          exact List.getLast?_concat _
        rw [hX] at hlast
        exact (Option.some.inj hlast).symm
      subst hlget
      conv_lhs => rw [hdecomp, hd]
      rw [show l.take i ++ l.get ⟨i, h⟩ :: ([] : List α) = l.take i ++ [l.get ⟨i, h⟩]
        from rfl]
      rw [List.dropLast_concat]
      exact List.perm_append_singleton _ _
  | cons d0 drest =>
      obtain ⟨D, x, hDx⟩ : ∃ D x, d0 :: drest = D ++ [x] :=
        ⟨(d0 :: drest).dropLast, (d0 :: drest).getLast (by simp),
          (List.dropLast_concat_getLast (by simp)).symm⟩
      have hxlast : x = last := by
        have hX : l.getLast? = some x := by
          conv_lhs => rw [hdecomp, hd, hDx, show l.take i ++ l.get ⟨i, h⟩ :: (D ++ [x]) =
            (l.take i ++ l.get ⟨i, h⟩ :: D) ++ [x] by simp]
          exact List.getLast?_concat _
        rw [hX] at hlast
        exact Option.some.inj hlast
      rw [← hxlast]
      rw [hDx, show l.take i ++ x :: (D ++ [x]) =
        (l.take i ++ x :: D) ++ [x] by simp, List.dropLast_concat]
      conv_lhs => rw [hdecomp, hd, hDx]
      exact List.Perm.trans List.perm_middle
        (List.Perm.cons _ (List.Perm.append_left _ (List.perm_append_singleton _ _)))

theorem keyScanLoop_spec (tables : List Table) :
    ∀ (fuel : Nat) (cond : Condition) (i : Nat) (key : Option Data),
      cond.length - i < fuel →
      ∀ cond' key', keyScanLoop tables fuel cond i key = .keyFound cond' key' →
        ∃ removed, cond.Perm (cond' ++ removed) ∧
          (∀ q ∈ removed, ∃ c k, q.2 = BoolEval.constraint c ∧
            c.getKey tables = some k ∧ key' = some k) ∧
          (∀ k, key = some k → key' = some k) ∧
          (∀ k, key' = some k → key = some k ∨
            ∃ q ∈ removed, ∃ c, q.2 = BoolEval.constraint c ∧
              c.getKey tables = some k) := by
  intro fuel
  induction fuel with
  | zero =>
      intro cond i key hlt
      omega
  | succ fuel ih =>
      intro cond i key hlt cond' key' hrun
      by_cases hi : i < cond.length
      · rw [keyScanLoop, dif_pos hi] at hrun
        cases hget : (cond.get ⟨i, hi⟩).2 with
        | condition sub =>
            rw [hget] at hrun
            dsimp only at hrun
            exact ih cond (i + 1) key (by omega) cond' key' hrun
        | constraint c =>
            rw [hget] at hrun
            dsimp only at hrun
            cases hk : c.getKey tables with
            | none =>
                rw [hk] at hrun
                dsimp only at hrun
                exact ih cond (i + 1) key (by omega) cond' key' hrun
            | some newKey =>
                rw [hk] at hrun
                dsimp only at hrun
                have hperm0 := listSwapRemove_perm cond i hi
                have hlen2 : (listSwapRemove cond i).length + 1 = cond.length := by
                  have := hperm0.length_eq
                  simpa using this.symm
                cases key with
                | some k =>
                    dsimp only at hrun
                    by_cases hkk : k = newKey
                    · rw [if_pos hkk] at hrun
                      obtain ⟨removed₁, hp1, hprops1, hpres1, hback1⟩ :=
                        ih (listSwapRemove cond i) i (some k) (by omega) cond' key' hrun
                      have hkey' : key' = some k := hpres1 k rfl
                      refine ⟨cond.get ⟨i, hi⟩ :: removed₁, ?_, ?_, ?_, ?_⟩
                      · exact hperm0.trans ((hp1.cons _).trans List.perm_middle.symm)
                      · intro q hq
                        rcases List.mem_cons.mp hq with hq | hq
                        · subst hq
                          exact ⟨c, newKey, hget, hk, by rw [hkey', hkk]⟩
                        · exact hprops1 q hq
                      · intro k0 hk0
                        rw [← Option.some.inj hk0]
                        exact hkey'
                      · intro k0 hk0
                        left
                        rw [hkey'] at hk0
                        exact hk0
                    · rw [if_neg hkk] at hrun
                      exact KeyScan.noConfusion hrun
                | none =>
                    dsimp only at hrun
                    obtain ⟨removed₁, hp1, hprops1, hpres1, hback1⟩ :=
                      ih (listSwapRemove cond i) i (some newKey) (by omega) cond' key' hrun
                    have hkey' : key' = some newKey := hpres1 newKey rfl
                    refine ⟨cond.get ⟨i, hi⟩ :: removed₁, ?_, ?_, ?_, ?_⟩
                    · exact hperm0.trans ((hp1.cons _).trans List.perm_middle.symm)
                    · intro q hq
                      rcases List.mem_cons.mp hq with hq | hq
                      · subst hq
                        exact ⟨c, newKey, hget, hk, hkey'⟩
                      · exact hprops1 q hq
                    · intro k0 hk0
                      exact Option.noConfusion hk0
                    · intro k0 hk0
                      right
                      rw [hkey'] at hk0
                      refine ⟨cond.get ⟨i, hi⟩, by simp, c, hget, ?_⟩
                      rw [← Option.some.inj hk0]
                      exact hk
      · rw [keyScanLoop, dif_neg hi] at hrun
        obtain ⟨hc, hk⟩ := KeyScan.keyFound.inj hrun
        subst hc hk
        refine ⟨[], by simp, by simp, fun k hk => hk, fun k hk => Or.inl hk⟩

theorem getKey_single {t : Table} {c : Constraint} {k : Data}
    (h : c.getKey [t] = some k) :
    ∃ kn, t.keyAttriNum = some kn ∧
      ((c.leftOp = .attribute 0 kn ∧ c.relOp = .equals ∧ c.rightOp = .value k) ∨
       (c.leftOp = .value k ∧ c.relOp = .equals ∧ c.rightOp = .attribute 0 kn)) := by
  obtain ⟨cl, cop, cr⟩ := c
  rcases cl with ⟨i, j⟩ | d <;> rcases cr with ⟨i', j'⟩ | d' <;> cases cop <;>
    simp only [Constraint.getKey] at h
  all_goals try exact Option.noConfusion h
  · cases i with
    | zero =>
        simp only [List.get?] at h
        split at h
        · next hkn =>
            exact ⟨j, hkn, Or.inl ⟨rfl, rfl, by rw [Option.some.inj h]⟩⟩
        · exact Option.noConfusion h
    | succ n =>
        simp only [List.get?] at h
        exact Option.noConfusion h
  · cases i' with
    | zero =>
        simp only [List.get?] at h
        split at h
        · next hkn =>
            exact ⟨j', hkn, Or.inr ⟨by rw [Option.some.inj h], rfl, rfl⟩⟩
        · exact Option.noConfusion h
    | succ n =>
        simp only [List.get?] at h
        exact Option.noConfusion h

theorem key_constraint_eval_true {r : List Data} {kn : Nat} {k : Data}
    {c : Constraint}
    (hform : (c.leftOp = .attribute 0 kn ∧ c.relOp = .equals ∧ c.rightOp = .value k) ∨
             (c.leftOp = .value k ∧ c.relOp = .equals ∧ c.rightOp = .attribute 0 kn))
    (hr : r.get? kn = some k) :
    (BoolEval.constraint c).eval [r] = some true := by
  obtain ⟨cl, cop, cr⟩ := c
  rw [List.get?_eq_getElem?] at hr
  rcases hform with ⟨h1, h2, h3⟩ | ⟨h1, h2, h3⟩ <;>
    simp only at h1 h2 h3 <;> subst h1 <;> subst h2 <;> subst h3 <;>
    simp [BoolEval.eval, Constraint.eval, Operand.evalData, hr, dataCmp_refl, RelOp.apply]

theorem ftcGo_all_false {cond : Condition} {mem : MemTable} {coords : List Nat}
    (h : ∀ cn ∈ coords, ∃ r, mem.records.get? cn = some r ∧
      Condition.evalFrom [r] true cond = some false) :
    ftcGo cond 1 0 mem coords = some [] := by
  induction coords with
  | nil => rfl
  | cons cn cs ih =>
      obtain ⟨r, hr, hev⟩ := h cn (by simp)
      rw [List.get?_eq_getElem?] at hr
      have hjoined : (List.replicate 1 ([] : List Data)).set 0 r = [r] := rfl
      simp [ftcGo, hr, hjoined, hev, ih fun c hc => h c (by simp [hc])]

theorem evalFrom_false_of_perm {r : List Data} {cond cond' removed : Condition}
    (hperm : cond.Perm (cond' ++ removed))
    (hand : ∀ p ∈ cond, p.1 = LogOp.and)
    (htot : ∀ p ∈ cond, (BoolEval.eval [r] p.2).isSome)
    (hrem : ∀ q ∈ removed, BoolEval.eval [r] q.2 = some true)
    (hfalse : Condition.evalFrom [r] true cond = some false) :
    Condition.evalFrom [r] true cond' = some false := by
  have hmem : ∀ p ∈ cond', p ∈ cond := fun p hp =>
    hperm.mem_iff.mpr (List.mem_append.mpr (Or.inl hp))
  have hand' : ∀ p ∈ cond', p.1 = LogOp.and := fun p hp => hand p (hmem p hp)
  have htot' : ∀ p ∈ cond', (BoolEval.eval [r] p.2).isSome := fun p hp =>
    htot p (hmem p hp)
  rw [evalFrom_and_all hand htot] at hfalse
  have hall : cond.all (fun p => p.2.eval [r] == some true) = false :=
    Option.some.inj hfalse
  obtain ⟨p, hp, hfp⟩ := List.all_eq_false.mp hall
  have hp' : p ∈ cond' := by
    rcases List.mem_append.mp (hperm.mem_iff.mp hp) with h | h
    · exact h
    · exact absurd (by rw [hrem p h]; rfl) hfp
  rw [evalFrom_and_all hand' htot']
  exact congrArg some (List.all_eq_false.mpr ⟨p, hp', hfp⟩)

theorem filter_no_match {t : Table} {cond : Condition} {recs : List (List Data)}
    (hwf : ∀ c ∈ Condition.constraintsOf cond, c.wf1 t.attributes)
    (hrwf : ∀ r ∈ recs, recordWF t.attributes r)
    (hbst : ∀ b, t.bst = some b → ∃ kn, t.keyAttriNum = some kn ∧
      ∀ pr ∈ b.pairs, ∃ r, recs.get? pr.2 = some r ∧ r.get? kn = some pr.1)
    (hnomatch : ∀ r ∈ recs, Condition.evalFrom [r] true cond = some false) :
    Condition.filterTableCoords cond
      [⟨recs, t.attributes, List.range t.attributes.length⟩] 0 t.bst [t] = some [] := by
  have htotr : ∀ r ∈ recs, ∀ p ∈ cond, (BoolEval.eval [r] p.2).isSome := by
    intro r hr p hp
    obtain ⟨b0, hb0⟩ := BoolEval.eval_total (hrwf r hr) p.2
      fun c hc => hwf c (constraints_sub hp c hc)
    simp [hb0]
  unfold Condition.filterTableCoords
  simp only [List.get?]
  cases hb : t.bst with
  | none =>
      refine ftcGo_all_false ?_
      intro cn hcn
      rw [List.mem_range] at hcn
      exact ⟨recs.get ⟨cn, hcn⟩, List.get?_eq_get hcn,
        hnomatch _ (List.get_mem recs cn hcn)⟩
  | some b =>
      obtain ⟨kn, hkn, hbpairs⟩ := hbst b hb
      dsimp only
      have hGData : ∀ cn ∈ b.getData, ∃ r, recs.get? cn = some r ∧
          Condition.evalFrom [r] true cond = some false := by
        intro cn hcn
        rw [getData_eq_pairs] at hcn
        obtain ⟨pr, hpr, hpr2⟩ := List.mem_map.mp hcn
        obtain ⟨r, hrg, hrk⟩ := hbpairs pr hpr
        rw [hpr2] at hrg
        exact ⟨r, hrg, hnomatch r (List.get?_mem hrg)⟩
      by_cases hor : (cond.any fun p => p.1 = LogOp.or) = true
      · have hg : getRecordNumsFromBst cond b [t] = some (cond, b.getData) := by
          unfold getRecordNumsFromBst
          rw [if_pos hor]
        rw [hg]
        exact ftcGo_all_false hGData
      · have hand : ∀ p ∈ cond, p.1 = LogOp.and := by
          intro p hp
          cases hl : p.1 with
          | and => rfl
          | or => exact absurd (List.any_eq_true.mpr ⟨p, hp, by simp [hl]⟩) hor
        cases hscan : keyScanLoop [t] (cond.length + 1) cond 0 none with
        | emptyResult =>
            have hg : getRecordNumsFromBst cond b [t] = some ([], []) := by
              unfold getRecordNumsFromBst
              rw [if_neg hor, hscan]
            rw [hg]
            rfl
        | keyFound cond' keyR =>
            obtain ⟨removed, hperm, hprops, hpres, hback⟩ :=
              keyScanLoop_spec [t] (cond.length + 1) cond 0 none (by omega)
                cond' keyR hscan
            cases keyR with
            | none =>
                have hremnil : removed = [] := by
                  cases removed with
                  | nil => rfl
                  | cons q qs =>
                      obtain ⟨c, k, h1, h2, hk'⟩ := hprops q (by simp)
                      exact Option.noConfusion hk'
                subst hremnil
                have hg : getRecordNumsFromBst cond b [t] = some (cond', b.getData) := by
                  unfold getRecordNumsFromBst
                  rw [if_neg hor, hscan]
                rw [hg]
                refine ftcGo_all_false ?_
                intro cn hcn
                obtain ⟨r, hrg, hrev⟩ := hGData cn hcn
                exact ⟨r, hrg, evalFrom_false_of_perm hperm hand
                  (htotr r (List.get?_mem hrg)) (by simp) hrev⟩
            | some k =>
                obtain hk0 | ⟨q, hq, c, hqc, hck⟩ := hback k rfl
                · exact Option.noConfusion hk0
                obtain ⟨kn₂, hkn₂, hshape⟩ := getKey_single hck
                have e₂ : kn = kn₂ := by
                  rw [hkn] at hkn₂
                  exact Option.some.inj hkn₂
                subst e₂
                have hqcond : q ∈ cond :=
                  hperm.mem_iff.mpr (List.mem_append.mpr (Or.inr hq))
                have hcwf : c.wf1 t.attributes :=
                  hwf c (constraints_sub hqcond c
                    (by rw [hqc]; simp [BoolEval.constraints]))
                obtain ⟨dom, hl2, hr2⟩ := hcwf
                have hattr : ∃ a, t.attributes.get? kn = some a ∧
                    (a : String × Domain).2 = dom ∧ k.domain = dom := by
                  rcases hshape with ⟨h1, h2, h3⟩ | ⟨h1, h2, h3⟩
                  · rw [h1] at hl2
                    rw [h3] at hr2
                    obtain ⟨-, hmap⟩ := hl2
                    cases ha : t.attributes.get? kn with
                    | none =>
                        rw [ha] at hmap
                        exact Option.noConfusion hmap
                    | some a =>
                        rw [ha, Option.map_some'] at hmap
                        exact ⟨a, rfl, Option.some.inj hmap, hr2⟩
                  · rw [h1] at hl2
                    rw [h3] at hr2
                    obtain ⟨-, hmap⟩ := hr2
                    cases ha : t.attributes.get? kn with
                    | none =>
                        rw [ha] at hmap
                        exact Option.noConfusion hmap
                    | some a =>
                        rw [ha, Option.map_some'] at hmap
                        exact ⟨a, rfl, Option.some.inj hmap, hl2⟩
                obtain ⟨a, ha, hadom, hkdom⟩ := hattr
                have hdomall : ∀ pr ∈ b.pairs, (pr.1 : Data).domain = k.domain := by
                  intro pr hpr
                  obtain ⟨r, hrg, hrk⟩ := hbpairs pr hpr
                  obtain ⟨v, hv, hvdom⟩ :=
                    recordWF_get (hrwf r (List.get?_mem hrg)) ha
                  rw [hrk] at hv
                  rw [Option.some.inj hv, hvdom, hadom, hkdom]
                have hfind : (b.find? k).isSome := find?_total hdomall
                cases hf : b.find? k with
                | none =>
                    rw [hf] at hfind
                    simp at hfind
                | some o1 =>
                    cases o1 with
                    | none =>
                        have hg : getRecordNumsFromBst cond b [t] =
                            some (cond', []) := by
                          unfold getRecordNumsFromBst
                          rw [if_neg hor, hscan]
                          dsimp only
                          rw [hf]
                        rw [hg]
                        rfl
                    | some n =>
                        have hg : getRecordNumsFromBst cond b [t] =
                            some (cond', [n]) := by
                          unfold getRecordNumsFromBst
                          rw [if_neg hor, hscan]
                          dsimp only
                          rw [hf]
                        rw [hg]
                        obtain ⟨r, hrg, hrk⟩ := hbpairs (k, n) (find?_mem hf)
                        refine ftcGo_all_false ?_
                        intro cn hcn
                        rw [List.mem_singleton] at hcn
                        subst hcn
                        refine ⟨r, hrg, ?_⟩
                        refine evalFrom_false_of_perm hperm hand
                          (htotr r (List.get?_mem hrg)) ?_
                          (hnomatch r (List.get?_mem hrg))
                        intro q' hq'
                        obtain ⟨c₃, k₃, hq3, hgk₃, hk₃⟩ := hprops q' hq'
                        have hk₃' : k = k₃ := Option.some.inj hk₃
                        subst hk₃'
                        obtain ⟨kn₃, hkn₃, hshape₃⟩ := getKey_single hgk₃
                        have e₃ : kn = kn₃ := by
                          rw [hkn] at hkn₃
                          exact Option.some.inj hkn₃
                        subst e₃
                        rw [hq3]
                        exact key_constraint_eval_true hshape₃ hrk

/-- C9: `Table::delete_all` with a condition that matches no stored record
is a no-op: it returns `Ok(())` before truncating the file, so the file
bytes, the record count and the index are left exactly as they were. -/
theorem delete_all_no_match {t : Table} {cond : Condition} {recs : List (List Data)}
    (hread : t.readAllData = .ok recs)
    (hwf : ∀ c ∈ Condition.constraintsOf cond, c.wf1 t.attributes)
    (hrwf : ∀ r ∈ recs, recordWF t.attributes r)
    (hbst : ∀ b, t.bst = some b → ∃ kn, t.keyAttriNum = some kn ∧
      ∀ pr ∈ b.pairs, ∃ r, recs.get? pr.2 = some r ∧ r.get? kn = some pr.1)
    (hnomatch : ∀ r ∈ recs, Condition.evalFrom [r] true cond = some false) :
    t.deleteAll cond = some (.ok (), t) := by
  have hfilter := filter_no_match hwf hrwf hbst hnomatch
  unfold Table.deleteAll
  rw [hread]
  dsimp only
  rw [hfilter]
  rfl

/-- C9 witness: deleting `WHERE k = 5` from the one-record indexed table
`dup(k integer primary key)` storing only the key `7` returns `Ok(())`
with the table unchanged. -/
theorem delete_all_no_match_witness :
    tblDup.deleteAll condNoMatch = some (.ok (), tblDup) := by
  refine @delete_all_no_match tblDup condNoMatch [[Data.integer 7]] rfl ?_ ?_ ?_ ?_
  · intro c hc
    simp only [condNoMatch, Condition.constraintsOf, BoolEval.constraints,
      List.append_nil, List.mem_singleton] at hc
    subst hc
    exact ⟨.integer, ⟨rfl, rfl⟩, rfl⟩
  · intro r hr
    rw [List.mem_singleton] at hr
    subst hr
    exact List.Forall₂.cons rfl List.Forall₂.nil
  · intro b hb
    refine ⟨0, rfl, ?_⟩
    have hb' : b = BST.node (.integer 7) 0 .leaf .leaf := (Option.some.inj hb).symm
    subst hb'
    intro pr hpr
    simp only [BST.pairs, List.nil_append, List.mem_singleton] at hpr
    subst hpr
    exact ⟨[Data.integer 7], rfl, rfl⟩
  · intro r hr
    rw [List.mem_singleton] at hr
    subst hr
    rfl

end MiniDBMS
